import Mathlib

/-!
Verification of the VLIW SIMD kernel code generator.

Shallow embedding of:
  - `src/kernel_scheduler.py` (`VLIWScheduler.build`, with its inner
    `get_writes` / `get_reads` helpers),
  - `src/kernel_memory.py` (`ScratchAllocator`),
  - `src/perf_takehome.py` (`KernelBuilder` driver methods `add`,
    `add_bundle`, `alloc_scratch`, `scratch_const`, `vec_const`),
  - `src/kernel_hash.py` (`HashBuilder.build_vhash`,
    `build_vhash_interleaved`, wired to the driver),
  - `src/kernel_traversal.py` (`TraversalBuilder._build_initialization`,
    header-load prologue).

The environment module `problem.py` (VLEN, SLOT_LIMITS, SCRATCH_SIZE,
HASH_STAGES) is not part of the repository; the development is
parametrised over those constants (`Config`, and explicit fields of the
allocator states).  Scratch addresses are modelled as `Int` (Python
ints), lengths and counts as `Nat`.
-/

namespace S2P

/-- Environment constants consumed by the scheduler: `VLEN` and the
`SLOT_LIMITS` dict (engine name → max slots per bundle). -/
structure Config where
  vlen : Nat
  slotLimits : List (String × Nat)
deriving DecidableEq, Repr

/-- Association-list lookup, modelling Python dict lookup (`d[k]` /
`k in d`); insertion sites below cons a fresh key or rebuild in place so
first-match semantics agrees with the dict. -/
def alist_get {α β : Type} [DecidableEq α] : List (α × β) → α → Option β
  | [], _ => none
  | (k, v) :: rest, a => if k = a then some v else alist_get rest a

/-- `SLOT_LIMITS.get(engine, 1)`. -/
def limitsGet (cfg : Config) (e : String) : Nat :=
  (alist_get cfg.slotLimits e).getD 1

/-- One payload element of a slot tuple: a Python int, or an opaque
debug-compare key tuple (never inspected by the scheduler). -/
inductive SlotArg where
  | num (n : Int)
  | keys (ks : List (Nat × Nat × String × Nat))
deriving DecidableEq, Repr

/-- A slot tuple `(opcode, x1, x2, ...)`: the discriminating opcode
string plus the remaining elements. -/
structure Slot where
  opcode : String
  args : List SlotArg
deriving DecidableEq, Repr

/-- `slot[k]` for `k ≥ 1`, read as an integer (the scheduler only ever
reads integer fields of non-debug slots). -/
def Slot.elt (s : Slot) (k : Nat) : Int :=
  match s.args.getD (k - 1) (SlotArg.num 0) with
  | SlotArg.num n => n
  | SlotArg.keys _ => 0

/-- An operation: an `(engine, slot)` pair. -/
abbrev Op := String × Slot

/-- `set(range(a, a + len))` over Python ints. -/
def intRange (a : Int) (len : Nat) : Finset Int :=
  (Finset.range len).image (fun k : Nat => a + (k : Int))

/-- `get_writes` from `VLIWScheduler.build`: scratch addresses written
by an operation.  Unmatched engine/opcode combinations fall through to
the final `return set()` exactly as in the source. -/
def get_writes (vlen : Nat) (engine : String) (slot : Slot) : Finset Int :=
  if engine = "debug" then ∅
  else if engine = "alu" then {slot.elt 1}
  else if engine = "valu" then
    if slot.opcode = "vbroadcast" then intRange (slot.elt 1) vlen
    else intRange (slot.elt 1) vlen
  else if engine = "load" then
    if slot.opcode = "const" then {slot.elt 1}
    else if slot.opcode = "load" then {slot.elt 1}
    else if slot.opcode = "vload" then intRange (slot.elt 1) vlen
    else if slot.opcode = "load_offset" then {slot.elt 1 + slot.elt 3}
    else ∅
  else if engine = "store" then ∅
  else if engine = "flow" then
    if slot.opcode = "select" then {slot.elt 1}
    else if slot.opcode = "vselect" then intRange (slot.elt 1) vlen
    else if slot.opcode = "add_imm" then {slot.elt 1}
    else ∅
  else ∅

/-- `get_reads` from `VLIWScheduler.build`: scratch addresses read by an
operation. -/
def get_reads (vlen : Nat) (engine : String) (slot : Slot) : Finset Int :=
  if engine = "debug" then ∅
  else if engine = "alu" then {slot.elt 2, slot.elt 3}
  else if engine = "valu" then
    if slot.opcode = "vbroadcast" then {slot.elt 2}
    else if slot.opcode = "multiply_add" then
      intRange (slot.elt 2) vlen ∪ intRange (slot.elt 3) vlen ∪ intRange (slot.elt 4) vlen
    else intRange (slot.elt 2) vlen ∪ intRange (slot.elt 3) vlen
  else if engine = "load" then
    if slot.opcode = "const" then ∅
    else if slot.opcode = "load" ∨ slot.opcode = "vload" then {slot.elt 2}
    else if slot.opcode = "load_offset" then {slot.elt 2 + slot.elt 3}
    else ∅
  else if engine = "store" then
    if slot.opcode = "store" then {slot.elt 1, slot.elt 2}
    else if slot.opcode = "vstore" then insert (slot.elt 1) (intRange (slot.elt 2) vlen)
    else ∅
  else if engine = "flow" then
    if slot.opcode = "select" then {slot.elt 2, slot.elt 3, slot.elt 4}
    else if slot.opcode = "vselect" then
      insert (slot.elt 2) (intRange (slot.elt 3) vlen ∪ intRange (slot.elt 4) vlen)
    else if slot.opcode = "add_imm" then {slot.elt 2}
    else if slot.opcode = "cond_jump" ∨ slot.opcode = "cond_jump_rel" then {slot.elt 1}
    else ∅
  else ∅

/-- `slots[i]` (out-of-range reads return a dummy op with empty
read/write sets; the scheduler only indexes in range). -/
def opAt (slots : List Op) (i : Nat) : Op :=
  slots.getD i ("", ⟨"", []⟩)

/-- Engine of `slots[i]`. -/
def opEngine (slots : List Op) (i : Nat) : String := (opAt slots i).1

/-- Slot tuple of `slots[i]`. -/
def opSlot (slots : List Op) (i : Nat) : Slot := (opAt slots i).2

/-- `op_reads[i]`. -/
def opReads (cfg : Config) (slots : List Op) (i : Nat) : Finset Int :=
  get_reads cfg.vlen (opEngine slots i) (opSlot slots i)

/-- `op_writes[i]`. -/
def opWrites (cfg : Config) (slots : List Op) (i : Nat) : Finset Int :=
  get_writes cfg.vlen (opEngine slots i) (opSlot slots i)

/-- State of the `last_write` dict after the dependency sweep has
processed ops `0 .. i-1` (debug ops are skipped, as in the source). -/
def lastWriteUpto (cfg : Config) (slots : List Op) : Nat → Int → Option Nat
  | 0 => fun _ => none
  | i + 1 => fun addr =>
      if opEngine slots i = "debug" then lastWriteUpto cfg slots i addr
      else if addr ∈ opWrites cfg slots i then some i
      else lastWriteUpto cfg slots i addr

/-- `pred[i]`: hard (RAW/WAW) dependency set, as built by the first
sweep of `VLIWScheduler.build` — for each address read or written by op
`i`, the most recent earlier writer of that address. -/
def predAt (cfg : Config) (slots : List Op) (i : Nat) : Finset Nat :=
  if opEngine slots i = "debug" then ∅
  else (opReads cfg slots i ∪ opWrites cfg slots i).biUnion
        (fun addr => (lastWriteUpto cfg slots i addr).toFinset)

/-- State of the `last_read` dict (address → set of reader indices)
after the WAR sweep has processed ops `0 .. i-1`. -/
def lastReadUpto (cfg : Config) (slots : List Op) : Nat → Int → Finset Nat
  | 0 => fun _ => ∅
  | i + 1 => fun addr =>
      if opEngine slots i = "debug" then lastReadUpto cfg slots i addr
      else if addr ∈ opReads cfg slots i then insert i (lastReadUpto cfg slots i addr)
      else lastReadUpto cfg slots i addr

/-- `war_pred[i]`: earlier readers of each address written by op `i`
(placeable in the same cycle, never later). -/
def warPredAt (cfg : Config) (slots : List Op) (i : Nat) : Finset Nat :=
  if opEngine slots i = "debug" then ∅
  else (opWrites cfg slots i).biUnion
        (fun addr => (lastReadUpto cfg slots i addr).filter (fun j => j < i))

/-- `succ[j]`: ops whose hard predecessor set contains `j`. -/
def succAt (cfg : Config) (slots : List Op) (j : Nat) : Finset Nat :=
  (Finset.range slots.length).filter (fun i => j ∈ predAt cfg slots i)

/-- `base_limit`: the largest non-debug slot limit (0 if the table has
no non-debug entry; Python's `max` would raise there). -/
def baseLimit (cfg : Config) : Nat :=
  ((cfg.slotLimits.filter (fun p => p.1 ≠ "debug")).map Prod.snd).foldl max 0

/-- `load_weight`. -/
def loadWeight (cfg : Config) : Nat :=
  (baseLimit cfg + limitsGet cfg "load" - 1) / limitsGet cfg "load"

/-- `load_bias`. -/
def loadBias (cfg : Config) : Nat := loadWeight cfg * 2

/-- `get_latency_weight`: scarcity-weighted latency used for critical
path priority. -/
def get_latency_weight (cfg : Config) (engine : String) : Nat :=
  if engine = "debug" then 0
  else if engine = "load" then loadBias cfg
  else
    let limit := limitsGet cfg engine
    let weight := (baseLimit cfg + limit - 1) / limit
    if engine = "flow" ∨ engine = "store" then min weight (loadWeight cfg) else weight

/-- Body of the backward height sweep: set `height[i]`. -/
def heightStep (cfg : Config) (slots : List Op) (i : Nat) (hs : List Nat) : List Nat :=
  let weight := get_latency_weight cfg (opEngine slots i)
  let s := succAt cfg slots i
  let h := if s = ∅ then weight else weight + s.sup (fun j => hs.getD j 0)
  hs.set i h

/-- `height`: longest latency-weighted path to a leaf, computed by the
backward sweep `for i in range(n - 1, -1, -1)`. -/
def heights (cfg : Config) (slots : List Op) : List Nat :=
  (List.range slots.length).reverse.foldl
    (fun hs i => heightStep cfg slots i hs) (List.replicate slots.length 0)

/-- `engine_priority.get(engine, 10)`. -/
def engine_priority (engine : String) : Nat :=
  if engine = "load" then 0
  else if engine = "store" then 1
  else if engine = "valu" then 2
  else if engine = "alu" then 3
  else if engine = "flow" then 4
  else if engine = "debug" then 5
  else 10

/-- The ready-queue sort key comparison: lexicographic on
`(-height[i], engine_priority, i)`. -/
def sortKeyLE (slots : List Op) (hs : List Nat) (i j : Nat) : Bool :=
  if hs.getD j 0 < hs.getD i 0 then true
  else if hs.getD i 0 = hs.getD j 0 then
    if engine_priority (opEngine slots i) < engine_priority (opEngine slots j) then true
    else if engine_priority (opEngine slots i) = engine_priority (opEngine slots j) then
      decide (i ≤ j)
    else false
  else false

/-- Ordered insertion for the ready-queue sort. -/
def insertLE (le : Nat → Nat → Bool) (x : Nat) : List Nat → List Nat
  | [] => [x]
  | y :: ys => if le x y then x :: y :: ys else y :: insertLE le x ys

/-- `ready.sort(key=...)`: the key is injective (ties broken by the
index itself), so the sorted list is the unique one and insertion sort
agrees with Python's sort. -/
def sortLE (le : Nat → Nat → Bool) (l : List Nat) : List Nat :=
  l.foldr (insertLE le) []

/-- A bundle: the `defaultdict(list)` mapping engine name to the slots
issued on that engine this cycle, in insertion order. -/
abbrev Bundle := List (String × List Slot)

/-- `bundle[engine].append(slot)`. -/
def bundleAdd : Bundle → String → Slot → Bundle
  | [], e, s => [(e, [s])]
  | (k, ss) :: rest, e, s =>
      if k = e then (k, ss ++ [s]) :: rest else (k, ss) :: bundleAdd rest e s

/-- The list of slots a bundle holds for a given engine. -/
def engineSlots (b : Bundle) (e : String) : List Slot :=
  (alist_get b e).getD []

/-- `slot_counts[engine]` (`defaultdict(int)`). -/
def countsGet (cs : List (String × Nat)) (e : String) : Nat :=
  (alist_get cs e).getD 0

/-- `slot_counts[engine] += 1`. -/
def countsInc : List (String × Nat) → String → List (String × Nat)
  | [], e => [(e, 1)]
  | (k, v) :: rest, e =>
      if k = e then (k, v + 1) :: rest else (k, v) :: countsInc rest e

/-- Mutable state of one forming cycle (bundle under construction).
`thisCycle` is the source's `scheduled_this_cycle` list; it records, in
placement order, which op indices were packed into the bundle — the
ghost that identifies "the bundle containing op `i`" in the theorems
below. -/
structure CycleState where
  bundle : Bundle
  counts : List (String × Nat)
  bundleWrites : Finset Int
  bundleReads : Finset Int
  scheduled : Finset Nat
  thisCycle : List Nat
deriving DecidableEq

/-- One attempt to place ready op `i` into the forming bundle (the body
of `for i in ready_set`).  The accumulator carries the cycle state, the
`new_ready` list and the `progress` flag. -/
def placeOp (cfg : Config) (slots : List Op) :
    CycleState × List Nat × Bool → Nat → CycleState × List Nat × Bool
  | (cs, nr, prog), i =>
    let engine := opEngine slots i
    let slot := opSlot slots i
    if engine = "debug" then
      ({ cs with bundle := bundleAdd cs.bundle engine slot,
                 scheduled := insert i cs.scheduled,
                 thisCycle := cs.thisCycle ++ [i] }, nr, true)
    else if ∃ p ∈ warPredAt cfg slots i, p ∉ cs.scheduled ∧ p ∉ cs.thisCycle then
      (cs, nr ++ [i], prog)
    else if limitsGet cfg engine ≤ countsGet cs.counts engine then
      (cs, nr ++ [i], prog)
    else if ((opReads cfg slots i) ∩ cs.bundleWrites).Nonempty then
      (cs, nr ++ [i], prog)
    else if ((opWrites cfg slots i) ∩ cs.bundleWrites).Nonempty then
      (cs, nr ++ [i], prog)
    else
      ({ bundle := bundleAdd cs.bundle engine slot,
         counts := countsInc cs.counts engine,
         bundleWrites := cs.bundleWrites ∪ opWrites cfg slots i,
         bundleReads := cs.bundleReads ∪ opReads cfg slots i,
         scheduled := insert i cs.scheduled,
         thisCycle := cs.thisCycle ++ [i] }, nr, true)

/-- One pass of the iterative bundle fill over the current ready list. -/
def cyclePass (cfg : Config) (slots : List Op) (cs : CycleState) (rs : List Nat) :
    CycleState × List Nat × Bool :=
  rs.foldl (placeOp cfg slots) (cs, [], false)

/-- `while progress and ready_set`: re-sweep until a full pass makes no
progress.  A pass that makes progress strictly shrinks the ready list,
so fuel `rs.length + 1` never runs out and the function agrees with the
source loop. -/
def cycleLoop (cfg : Config) (slots : List Op) :
    Nat → CycleState → List Nat → CycleState × List Nat
  | 0, cs, rs => (cs, rs)
  | fuel + 1, cs, rs =>
      if rs.isEmpty then (cs, rs)
      else
        match cyclePass cfg slots cs rs with
        | (cs1, newReady, prog) =>
          if prog then cycleLoop cfg slots fuel cs1 newReady
          else (cs1, newReady)

/-- Scheduler state between cycles. -/
structure OuterState where
  instrs : List Bundle
  cycles : List (List Nat)
  scheduled : Finset Nat
  predRem : List (Finset Nat)
  ready : List Nat
deriving DecidableEq

/-- Body of the readiness sweep for one pair `(i, j)`: if `j` is
unscheduled and `i ∈ pred[j]`, remove `i`, and append `j` to the ready
list when its pred set empties. -/
def sweepBody (sched : Finset Nat) (i : Nat)
    (acc : List (Finset Nat) × List Nat) (j : Nat) : List (Finset Nat) × List Nat :=
  if j ∉ sched ∧ i ∈ acc.1.getD j ∅ then
    let prj := (acc.1.getD j ∅).erase i
    let pr1 := acc.1.set j prj
    let rd1 := if prj = ∅ ∧ j ∉ acc.2 then acc.2 ++ [j] else acc.2
    (pr1, rd1)
  else acc

/-- End-of-cycle readiness update for one scheduled op `i`: sweep all
`j` in `range(n)` (the body of `for i in scheduled_this_cycle`). -/
def readyUpdate (sched : Finset Nat) (n : Nat) (i : Nat)
    (acc : List (Finset Nat) × List Nat) : List (Finset Nat) × List Nat :=
  (List.range n).foldl (sweepBody sched i) acc

/-- One iteration of the outer `while ready` loop: sort the ready queue,
fill one bundle, emit it if non-empty, and update readiness. -/
def outerStep (cfg : Config) (slots : List Op) (hs : List Nat) (st : OuterState) :
    OuterState :=
  let sorted := sortLE (sortKeyLE slots hs) st.ready
  let cs0 : CycleState :=
    { bundle := [], counts := [], bundleWrites := ∅, bundleReads := ∅,
      scheduled := st.scheduled, thisCycle := [] }
  match cycleLoop cfg slots (sorted.length + 1) cs0 sorted with
  | (cs, leftover) =>
    let instrs1 := if cs.bundle = [] then st.instrs else st.instrs ++ [cs.bundle]
    let cycles1 := if cs.bundle = [] then st.cycles else st.cycles ++ [cs.thisCycle]
    match cs.thisCycle.foldl
        (fun acc i => readyUpdate cs.scheduled slots.length i acc)
        (st.predRem, leftover) with
    | (predRem1, ready1) =>
      { instrs := instrs1, cycles := cycles1, scheduled := cs.scheduled,
        predRem := predRem1, ready := ready1 }

/-- The outer scheduling loop.  Every productive cycle schedules at
least one op, so fuel `n + 1` reproduces the source whenever the source
terminates; on inputs where the source would spin forever without
progress (e.g. a zero slot limit) the fuel runs out and the partial
schedule is returned. -/
def schedLoop (cfg : Config) (slots : List Op) (hs : List Nat) :
    Nat → OuterState → OuterState
  | 0, st => st
  | fuel + 1, st =>
      if st.ready.isEmpty then st
      else schedLoop cfg slots hs fuel (outerStep cfg slots hs st)

/-- Full packing-mode scheduler state after `VLIWScheduler.build(slots,
vliw=True)` has run. -/
def buildState (cfg : Config) (slots : List Op) : OuterState :=
  let n := slots.length
  schedLoop cfg slots (heights cfg slots) (n + 1)
    { instrs := [], cycles := [], scheduled := ∅,
      predRem := (List.range n).map (predAt cfg slots),
      ready := (List.range n).filter (fun i => predAt cfg slots i = ∅) }

/-- Packing-mode result: the emitted bundles, paired with the ghost
per-bundle lists of scheduled op indices. -/
def buildPacked (cfg : Config) (slots : List Op) : List Bundle × List (List Nat) :=
  ((buildState cfg slots).instrs, (buildState cfg slots).cycles)

/-- `VLIWScheduler.build`: trivial one-op-per-bundle mode when `vliw`
is false, else the packing scheduler. -/
def build (cfg : Config) (slots : List Op) (vliw : Bool) : List Bundle :=
  if vliw = false then slots.map (fun op => [(op.1, [op.2])])
  else (buildPacked cfg slots).1

/-! ## `src/kernel_memory.py`: `ScratchAllocator` -/

/-- State of a `ScratchAllocator` (`vlen` / `scratch_size` are the
construction parameters, defaulted from the environment module). -/
structure ScratchAllocator where
  vlen : Nat
  scratch_size : Nat
  scratch : List (String × Nat)
  scratch_debug : List (Nat × String × Nat)
  scratch_ptr : Nat
  const_map : List (Int × Nat)
  vec_const_map : List (Int × Nat)
deriving DecidableEq

/-- `ScratchAllocator.alloc_scratch`: bump allocation; the trailing
`assert self.scratch_ptr <= self.scratch_size` is the fatal
out-of-scratch-space condition. -/
def alloc_scratch (s : ScratchAllocator) (name : Option String) (length : Nat) :
    Except String (Nat × ScratchAllocator) :=
  let addr := s.scratch_ptr
  let s1 := match name with
    | some n =>
        { s with scratch := (n, addr) :: s.scratch,
                 scratch_debug := (addr, n, length) :: s.scratch_debug }
    | none => s
  let s2 := { s1 with scratch_ptr := s1.scratch_ptr + length }
  if s2.scratch_ptr ≤ s2.scratch_size then Except.ok (addr, s2)
  else Except.error "Out of scratch space"

/-- `ScratchAllocator.scratch_const`: get or create a scalar constant,
returning the address together with the init instruction list (empty
when the value was cached). -/
def scratch_const (s : ScratchAllocator) (val : Int) (name : Option String) :
    Except String ((Nat × List Bundle) × ScratchAllocator) :=
  match alist_get s.const_map val with
  | some a => Except.ok ((a, []), s)
  | none =>
      match alloc_scratch s name 1 with
      | Except.error e => Except.error e
      | Except.ok (addr, s1) =>
          let instrs : List Bundle :=
            [[("load", [Slot.mk "const" [SlotArg.num addr, SlotArg.num val]])]]
          Except.ok ((addr, instrs), { s1 with const_map := (val, addr) :: s1.const_map })

/-- `ScratchAllocator.vec_const`: get or create a `vlen`-word broadcast
constant; on a miss it concatenates the scalar init ops with one
`vbroadcast`. -/
def vec_const (s : ScratchAllocator) (val : Int) :
    Except String ((Nat × List Bundle) × ScratchAllocator) :=
  match alist_get s.vec_const_map val with
  | some a => Except.ok ((a, []), s)
  | none =>
      match scratch_const s val none with
      | Except.error e => Except.error e
      | Except.ok ((scalar, scalar_instrs), s1) =>
          match alloc_scratch s1 (some ("vc_" ++ toString val)) s1.vlen with
          | Except.error e => Except.error e
          | Except.ok (vec, s2) =>
              let vec_instrs := scalar_instrs ++
                [[("valu", [Slot.mk "vbroadcast" [SlotArg.num vec, SlotArg.num scalar]])]]
              Except.ok ((vec, vec_instrs),
                { s2 with vec_const_map := (val, vec) :: s2.vec_const_map })

/-- One successful allocator operation, used to express properties that
hold across any sequence of allocator calls. -/
inductive AllocStep : ScratchAllocator → ScratchAllocator → Prop where
  | alloc {s s1 : ScratchAllocator} (name : Option String) (length : Nat) (r : Nat) :
      alloc_scratch s name length = Except.ok (r, s1) → AllocStep s s1
  | sconst {s s1 : ScratchAllocator} (v : Int) (name : Option String)
      (r : Nat × List Bundle) :
      scratch_const s v name = Except.ok (r, s1) → AllocStep s s1
  | vconst {s s1 : ScratchAllocator} (v : Int) (r : Nat × List Bundle) :
      vec_const s v = Except.ok (r, s1) → AllocStep s s1

/-- Reachability by any sequence of successful allocator operations. -/
def AllocReach : ScratchAllocator → ScratchAllocator → Prop :=
  Relation.ReflTransGen AllocStep

theorem alist_get_cons {α β : Type} [DecidableEq α] (k : α) (v : β)
    (rest : List (α × β)) (a : α) :
    alist_get ((k, v) :: rest) a = if k = a then some v else alist_get rest a := rfl

theorem alloc_scratch_ok_iff (s : ScratchAllocator) (name : Option String) (length : Nat) :
    (∃ r s1, alloc_scratch s name length = Except.ok (r, s1)) ↔
      s.scratch_ptr + length ≤ s.scratch_size := by
  cases name <;>
    · by_cases hc : s.scratch_ptr + length ≤ s.scratch_size <;> simp [alloc_scratch, hc]

theorem alloc_scratch_error_iff (s : ScratchAllocator) (name : Option String) (length : Nat) :
    (∃ e, alloc_scratch s name length = Except.error e) ↔
      s.scratch_size < s.scratch_ptr + length := by
  cases name <;>
    · by_cases hc : s.scratch_ptr + length ≤ s.scratch_size <;>
        simp [alloc_scratch, hc] <;> omega

theorem alloc_scratch_ok_fields (s : ScratchAllocator) (name : Option String)
    (length : Nat) (r : Nat) (s1 : ScratchAllocator)
    (h : alloc_scratch s name length = Except.ok (r, s1)) :
    r = s.scratch_ptr ∧ s1.scratch_ptr = s.scratch_ptr + length ∧
      s1.scratch_size = s.scratch_size ∧ s1.const_map = s.const_map ∧
      s1.vec_const_map = s.vec_const_map ∧ s1.vlen = s.vlen ∧
      (name = none → s1.scratch = s.scratch ∧ s1.scratch_debug = s.scratch_debug) ∧
      (∀ n, name = some n → alist_get s1.scratch n = some r ∧
        alist_get s1.scratch_debug r = some (n, length)) := by
  cases name with
  | none =>
    by_cases hc : s.scratch_ptr + length ≤ s.scratch_size <;>
      simp [alloc_scratch, hc] at h
    obtain ⟨hr, hs⟩ := h
    subst hr
    subst hs
    simp
  | some n =>
    by_cases hc : s.scratch_ptr + length ≤ s.scratch_size <;>
      simp [alloc_scratch, hc] at h
    obtain ⟨hr, hs⟩ := h
    subst hr
    subst hs
    simp [alist_get_cons]

theorem scratch_const_ptr_le (s : ScratchAllocator) (v : Int) (name : Option String)
    (r : Nat × List Bundle) (s1 : ScratchAllocator)
    (h : scratch_const s v name = Except.ok (r, s1)) :
    s.scratch_ptr ≤ s1.scratch_ptr := by
  unfold scratch_const at h
  cases hm : alist_get s.const_map v with
  | some a =>
      rw [hm] at h
      simp at h
      rw [h.2]
  | none =>
      rw [hm] at h
      cases ha : alloc_scratch s name 1 with
      | error e => rw [ha] at h; simp at h
      | ok p =>
          rw [ha] at h
          simp at h
          obtain ⟨-, hp, -⟩ :=
            alloc_scratch_ok_fields s name 1 p.1 p.2 (by rw [ha])
          rw [← h.2]
          simp
          omega

theorem scratch_const_cached (s : ScratchAllocator) (v : Int) (name : Option String)
    (a : Nat) (hm : alist_get s.const_map v = some a) :
    scratch_const s v name = Except.ok ((a, []), s) := by
  unfold scratch_const
  rw [hm]

theorem vec_const_cached (s : ScratchAllocator) (v : Int)
    (a : Nat) (hm : alist_get s.vec_const_map v = some a) :
    vec_const s v = Except.ok ((a, []), s) := by
  unfold vec_const
  rw [hm]

theorem scratch_const_map_fields (s : ScratchAllocator) (v : Int) (name : Option String)
    (r : Nat × List Bundle) (s1 : ScratchAllocator)
    (h : scratch_const s v name = Except.ok (r, s1)) :
    alist_get s1.const_map v = some r.1 ∧
      s1.vec_const_map = s.vec_const_map ∧
      (∀ w b, w ≠ v → alist_get s.const_map w = some b →
        alist_get s1.const_map w = some b) := by
  unfold scratch_const at h
  cases hm : alist_get s.const_map v with
  | some a =>
      rw [hm] at h
      simp at h
      obtain ⟨hr, hs⟩ := h
      rw [← hs, ← hr, hm]
      simp
  | none =>
      rw [hm] at h
      cases ha : alloc_scratch s name 1 with
      | error e => rw [ha] at h; simp at h
      | ok p =>
          rw [ha] at h
          simp at h
          obtain ⟨hr, hs⟩ := h
          obtain ⟨-, -, -, hcm, hvm, -, -⟩ :=
            alloc_scratch_ok_fields s name 1 p.1 p.2 (by rw [ha])
          rw [← hs, ← hr]
          refine ⟨by simp [alist_get_cons], by simp [hvm], ?_⟩
          intro w b hw hb
          simp [alist_get_cons, hw.symm, hcm, hb]

theorem vec_const_ptr_le (s : ScratchAllocator) (v : Int)
    (r : Nat × List Bundle) (s1 : ScratchAllocator)
    (h : vec_const s v = Except.ok (r, s1)) :
    s.scratch_ptr ≤ s1.scratch_ptr := by
  unfold vec_const at h
  cases hm : alist_get s.vec_const_map v with
  | some a =>
      rw [hm] at h
      simp at h
      rw [h.2]
  | none =>
      rw [hm] at h
      cases hsc : scratch_const s v none with
      | error e => rw [hsc] at h; simp at h
      | ok q =>
          rw [hsc] at h
          cases ha : alloc_scratch q.2 (some ("vc_" ++ toString v)) q.2.vlen with
          | error e => simp [ha] at h
          | ok p =>
              simp [ha] at h
              have h1 := scratch_const_ptr_le s v none q.1 q.2 (by rw [hsc])
              obtain ⟨-, hp, -⟩ :=
                alloc_scratch_ok_fields q.2 (some ("vc_" ++ toString v)) q.2.vlen p.1 p.2
                  (by rw [ha])
              rw [← h.2]
              simp
              omega

theorem vec_const_map_fields (s : ScratchAllocator) (v : Int)
    (r : Nat × List Bundle) (s1 : ScratchAllocator)
    (h : vec_const s v = Except.ok (r, s1)) :
    alist_get s1.vec_const_map v = some r.1 ∧
      (∀ w b, w ≠ v → alist_get s.vec_const_map w = some b →
        alist_get s1.vec_const_map w = some b) ∧
      (∀ w b, alist_get s.const_map w = some b → alist_get s1.const_map w = some b) := by
  unfold vec_const at h
  cases hm : alist_get s.vec_const_map v with
  | some a =>
      rw [hm] at h
      simp at h
      obtain ⟨hr, hs⟩ := h
      rw [← hs, ← hr, hm]
      exact ⟨rfl, fun w b _ hb => hb, fun w b hb => hb⟩
  | none =>
      rw [hm] at h
      cases hsc : scratch_const s v none with
      | error e => rw [hsc] at h; simp at h
      | ok q =>
          rw [hsc] at h
          cases ha : alloc_scratch q.2 (some ("vc_" ++ toString v)) q.2.vlen with
          | error e => simp [ha] at h
          | ok p =>
              simp [ha] at h
              obtain ⟨hcv, hvm, hpres⟩ :=
                scratch_const_map_fields s v none q.1 q.2 (by rw [hsc])
              obtain ⟨-, -, -, hcm, hvm2, -, -⟩ :=
                alloc_scratch_ok_fields q.2 (some ("vc_" ++ toString v)) q.2.vlen p.1 p.2
                  (by rw [ha])
              rw [← h.2]
              refine ⟨by simp [alist_get_cons, ← h.1], ?_, ?_⟩
              · intro w b hw hb
                simp [alist_get_cons, hw.symm, hvm2, hvm, hb]
              · intro w b hb
                simp [hcm]
                by_cases hwv : w = v
                · subst hwv
                  have hq : scratch_const s w none = Except.ok ((b, []), s) :=
                    scratch_const_cached s w none b hb
                  rw [hsc] at hq
                  simp at hq
                  rw [hq]
                  exact hb
                · exact hpres w b hwv hb

theorem allocStep_ptr_le {s s1 : ScratchAllocator} (h : AllocStep s s1) :
    s.scratch_ptr ≤ s1.scratch_ptr := by
  cases h with
  | alloc name length r ha =>
      obtain ⟨-, hp, -⟩ := alloc_scratch_ok_fields s name length r s1 ha
      omega
  | sconst v name r ha => exact scratch_const_ptr_le s v name r s1 ha
  | vconst v r ha => exact vec_const_ptr_le s v r s1 ha

theorem allocReach_ptr_le {s s1 : ScratchAllocator} (h : AllocReach s s1) :
    s.scratch_ptr ≤ s1.scratch_ptr := by
  induction h with
  | refl => exact le_rfl
  | tail _ hstep ih => exact le_trans ih (allocStep_ptr_le hstep)

theorem allocStep_const_mono {s s1 : ScratchAllocator} (h : AllocStep s s1)
    (v : Int) (a : Nat) (hv : alist_get s.const_map v = some a) :
    alist_get s1.const_map v = some a := by
  cases h with
  | alloc name length r ha =>
      obtain ⟨-, -, -, hc, -⟩ := alloc_scratch_ok_fields s name length r s1 ha
      rw [hc]
      exact hv
  | sconst w name r ha =>
      by_cases hwv : w = v
      · subst hwv
        have hc := scratch_const_cached s w name a hv
        rw [ha] at hc
        simp at hc
        rw [hc.2]
        exact hv
      · obtain ⟨-, -, h3⟩ := scratch_const_map_fields s w name r s1 ha
        exact h3 v a (fun he => hwv he.symm) hv
  | vconst w r ha =>
      obtain ⟨-, -, h3⟩ := vec_const_map_fields s w r s1 ha
      exact h3 v a hv

theorem allocStep_vec_mono {s s1 : ScratchAllocator} (h : AllocStep s s1)
    (v : Int) (a : Nat) (hv : alist_get s.vec_const_map v = some a) :
    alist_get s1.vec_const_map v = some a := by
  cases h with
  | alloc name length r ha =>
      obtain ⟨-, -, -, -, hc, -⟩ := alloc_scratch_ok_fields s name length r s1 ha
      rw [hc]
      exact hv
  | sconst w name r ha =>
      obtain ⟨-, h2, -⟩ := scratch_const_map_fields s w name r s1 ha
      rw [h2]
      exact hv
  | vconst w r ha =>
      by_cases hwv : w = v
      · subst hwv
        have hc := vec_const_cached s w a hv
        rw [ha] at hc
        simp at hc
        rw [hc.2]
        exact hv
      · obtain ⟨-, h2, -⟩ := vec_const_map_fields s w r s1 ha
        exact h2 v a (fun he => hwv he.symm) hv

theorem allocReach_const_mono {s s1 : ScratchAllocator} (h : AllocReach s s1)
    (v : Int) (a : Nat) (hv : alist_get s.const_map v = some a) :
    alist_get s1.const_map v = some a := by
  induction h with
  | refl => exact hv
  | tail _ hstep ih => exact allocStep_const_mono hstep v a ih

theorem allocReach_vec_mono {s s1 : ScratchAllocator} (h : AllocReach s s1)
    (v : Int) (a : Nat) (hv : alist_get s.vec_const_map v = some a) :
    alist_get s1.vec_const_map v = some a := by
  induction h with
  | refl => exact hv
  | tail _ hstep ih => exact allocStep_vec_mono hstep v a ih

/-- C6: `scratch_const` allocates a fresh word and returns a one-op
`load const` init list on the first call for a value, and returns the
cached address with an empty init list on every later call
(`vec_const` likewise for the vector cache), across any sequence of
allocator operations — so every constant value maps to at most one
scalar and at most one vector address. -/
theorem claim_C6_const_dedup :
    (∀ (s : ScratchAllocator) (v : Int) (name : Option String),
        alist_get s.const_map v = none → s.scratch_ptr + 1 ≤ s.scratch_size →
        ∃ s1 : ScratchAllocator,
          scratch_const s v name =
            Except.ok ((s.scratch_ptr,
              [[("load",
                 [Slot.mk "const" [SlotArg.num (s.scratch_ptr : Int), SlotArg.num v]])]]),
              s1) ∧
          alist_get s1.const_map v = some s.scratch_ptr) ∧
    (∀ (s : ScratchAllocator) (v : Int) (name : Option String) (a : Nat),
        alist_get s.const_map v = some a →
        scratch_const s v name = Except.ok ((a, []), s)) ∧
    (∀ (s : ScratchAllocator) (v : Int) (a : Nat),
        alist_get s.vec_const_map v = some a →
        vec_const s v = Except.ok ((a, []), s)) ∧
    (∀ (s : ScratchAllocator) (v : Int) (name : Option String)
        (r : Nat × List Bundle) (s1 : ScratchAllocator),
        scratch_const s v name = Except.ok (r, s1) →
        alist_get s1.const_map v = some r.1) ∧
    (∀ (s : ScratchAllocator) (v : Int) (r : Nat × List Bundle) (s1 : ScratchAllocator),
        vec_const s v = Except.ok (r, s1) →
        alist_get s1.vec_const_map v = some r.1) ∧
    (∀ (s s1 : ScratchAllocator) (v : Int) (a : Nat) (name : Option String),
        alist_get s.const_map v = some a → AllocReach s s1 →
        scratch_const s1 v name = Except.ok ((a, []), s1)) ∧
    (∀ (s s1 : ScratchAllocator) (v : Int) (a : Nat),
        alist_get s.vec_const_map v = some a → AllocReach s s1 →
        vec_const s1 v = Except.ok ((a, []), s1)) := by
  refine ⟨?_, ?_, ?_, ?_, ?_, ?_, ?_⟩
  · intro s v name h0 hsz
    obtain ⟨r, s1, ha⟩ := (alloc_scratch_ok_iff s name 1).2 hsz
    obtain ⟨hr, -⟩ := alloc_scratch_ok_fields s name 1 r s1 ha
    subst hr
    refine ⟨{ s1 with const_map := (v, s.scratch_ptr) :: s1.const_map }, ?_, ?_⟩
    · unfold scratch_const
      rw [h0, ha]
    · simp [alist_get_cons]
  · exact fun s v name a hm => scratch_const_cached s v name a hm
  · exact fun s v a hm => vec_const_cached s v a hm
  · exact fun s v name r s1 h => (scratch_const_map_fields s v name r s1 h).1
  · exact fun s v r s1 h => (vec_const_map_fields s v r s1 h).1
  · intro s s1 v a name hm hr
    exact scratch_const_cached s1 v name a (allocReach_const_mono hr v a hm)
  · intro s s1 v a hm hr
    exact vec_const_cached s1 v a (allocReach_vec_mono hr v a hm)

/-- Witness for C6 at a concrete allocator state whose scalar constant
map already holds value 7 at address 3. -/
theorem claim_C6_const_dedup_witness :
    scratch_const ⟨8, 16, [], [], 5, [((7 : Int), 3)], []⟩ 7 none =
      Except.ok ((3, []), ⟨8, 16, [], [], 5, [((7 : Int), 3)], []⟩) :=
  claim_C6_const_dedup.2.1 ⟨8, 16, [], [], 5, [((7 : Int), 3)], []⟩ 7 none 3 rfl

/-- C7: `alloc_scratch` returns the pre-call pointer, advances the
pointer by exactly `length` (hence the pointer is monotone across any
sequence of allocator operations), records the name and debug entries
exactly when a name is given, and fails with the out-of-scratch-space
condition iff the advanced pointer exceeds the capacity. -/
theorem claim_C7_alloc_scratch :
    (∀ (s : ScratchAllocator) (name : Option String) (length r : Nat)
        (s1 : ScratchAllocator),
        alloc_scratch s name length = Except.ok (r, s1) →
        r = s.scratch_ptr ∧ s1.scratch_ptr = s.scratch_ptr + length ∧
        (name = none → s1.scratch = s.scratch ∧ s1.scratch_debug = s.scratch_debug) ∧
        (∀ n, name = some n → alist_get s1.scratch n = some r ∧
            alist_get s1.scratch_debug r = some (n, length))) ∧
    (∀ (s : ScratchAllocator) (name : Option String) (length : Nat),
        (∃ e, alloc_scratch s name length = Except.error e) ↔
          s.scratch_size < s.scratch_ptr + length) ∧
    (∀ (s : ScratchAllocator) (name : Option String) (length : Nat),
        s.scratch_ptr + length ≤ s.scratch_size →
        ∃ r s1, alloc_scratch s name length = Except.ok (r, s1)) ∧
    (∀ s s1, AllocReach s s1 → s.scratch_ptr ≤ s1.scratch_ptr) := by
  refine ⟨?_, ?_, ?_, ?_⟩
  · intro s name length r s1 h
    obtain ⟨h1, h2, -, -, -, -, h7, h8⟩ := alloc_scratch_ok_fields s name length r s1 h
    exact ⟨h1, h2, h7, h8⟩
  · exact fun s name length => alloc_scratch_error_iff s name length
  · exact fun s name length h => (alloc_scratch_ok_iff s name length).2 h
  · exact fun s s1 h => allocReach_ptr_le h

/-- Witness for C7 at a concrete allocation of 3 named words from an
empty allocator of capacity 10. -/
theorem claim_C7_alloc_scratch_witness :
    (0 : Nat) = (ScratchAllocator.mk 8 10 [] [] 0 [] []).scratch_ptr ∧
      (ScratchAllocator.mk 8 10 [("x", 0)] [(0, "x", 3)] 3 [] []).scratch_ptr =
        (ScratchAllocator.mk 8 10 [] [] 0 [] []).scratch_ptr + 3 ∧
      (some "x" = none →
        (ScratchAllocator.mk 8 10 [("x", 0)] [(0, "x", 3)] 3 [] []).scratch =
          (ScratchAllocator.mk 8 10 [] [] 0 [] []).scratch ∧
        (ScratchAllocator.mk 8 10 [("x", 0)] [(0, "x", 3)] 3 [] []).scratch_debug =
          (ScratchAllocator.mk 8 10 [] [] 0 [] []).scratch_debug) ∧
      (∀ n, some "x" = some n →
        alist_get (ScratchAllocator.mk 8 10 [("x", 0)] [(0, "x", 3)] 3 [] []).scratch n =
          some 0 ∧
        alist_get
            (ScratchAllocator.mk 8 10 [("x", 0)] [(0, "x", 3)] 3 [] []).scratch_debug 0 =
          some (n, 3)) :=
  claim_C7_alloc_scratch.1 (ScratchAllocator.mk 8 10 [] [] 0 [] []) (some "x") 3 0
    (ScratchAllocator.mk 8 10 [("x", 0)] [(0, "x", 3)] 3 [] []) rfl

/-! ## `src/perf_takehome.py`: the `KernelBuilder` driver façade

The refactored emitters (`kernel_hash.py`, `kernel_traversal.py`) are
wired to the driver: its `scratch_const` / `vec_const` return a bare
address and append the constant-init bundles to the driver's `instrs`
accumulator, and `add` appends a one-op bundle immediately. -/

/-- Driver state: the bundle accumulator plus the scratch-allocation
fields (`VLEN` and `SCRATCH_SIZE` are carried as fields). -/
structure KernelBuilder where
  vlen : Nat
  scratch_size : Nat
  instrs : List Bundle
  scratch : List (String × Nat)
  scratch_debug : List (Nat × String × Nat)
  scratch_ptr : Nat
  const_map : List (Int × Nat)
  vec_const_map : List (Int × Nat)
deriving DecidableEq

/-- `KernelBuilder.add`: append a single-slot instruction bundle. -/
def kb_add (b : KernelBuilder) (engine : String) (slot : Slot) : KernelBuilder :=
  { b with instrs := b.instrs ++ [[(engine, [slot])]] }

/-- `KernelBuilder.add_bundle`: append a pre-formed bundle. -/
def kb_add_bundle (b : KernelBuilder) (bundle : Bundle) : KernelBuilder :=
  { b with instrs := b.instrs ++ [bundle] }

/-- `KernelBuilder.alloc_scratch` (same bump allocation and fatal
overflow assert as the `ScratchAllocator` version). -/
def kb_alloc_scratch (b : KernelBuilder) (name : Option String) (length : Nat) :
    Except String (Nat × KernelBuilder) :=
  let addr := b.scratch_ptr
  let b1 := match name with
    | some n =>
        { b with scratch := (n, addr) :: b.scratch,
                 scratch_debug := (addr, n, length) :: b.scratch_debug }
    | none => b
  let b2 := { b1 with scratch_ptr := b1.scratch_ptr + length }
  if b2.scratch_ptr ≤ b2.scratch_size then Except.ok (addr, b2)
  else Except.error "Out of scratch space"

/-- `KernelBuilder.scratch_const`: returns the (possibly cached) scalar
constant address, emitting the `load const` init bundle through `add`
on a miss. -/
def kb_scratch_const (b : KernelBuilder) (val : Int) (name : Option String) :
    Except String (Nat × KernelBuilder) :=
  match alist_get b.const_map val with
  | some a => Except.ok (a, b)
  | none =>
      match kb_alloc_scratch b name 1 with
      | Except.error e => Except.error e
      | Except.ok (addr, b1) =>
          let b2 := kb_add b1 "load"
            (Slot.mk "const" [SlotArg.num (addr : Int), SlotArg.num val])
          Except.ok (addr, { b2 with const_map := (val, addr) :: b2.const_map })

/-- `KernelBuilder.vec_const`: returns the (possibly cached) broadcast
constant address, emitting the scalar init and a `vbroadcast` bundle on
a miss. -/
def kb_vec_const (b : KernelBuilder) (val : Int) :
    Except String (Nat × KernelBuilder) :=
  match alist_get b.vec_const_map val with
  | some a => Except.ok (a, b)
  | none =>
      match kb_scratch_const b val none with
      | Except.error e => Except.error e
      | Except.ok (scalar, b1) =>
          match kb_alloc_scratch b1 (some ("vc_" ++ toString val)) b1.vlen with
          | Except.error e => Except.error e
          | Except.ok (vec, b2) =>
              let b3 := kb_add_bundle b2
                [("valu", [Slot.mk "vbroadcast" [SlotArg.num (vec : Int), SlotArg.num (scalar : Int)]])]
              Except.ok (vec, { b3 with vec_const_map := (val, vec) :: b3.vec_const_map })

/-! ## `src/kernel_hash.py`: `HashBuilder` -/

/-- One entry of the environment's `HASH_STAGES` table. -/
structure HashStage where
  op1 : String
  val1 : Int
  op2 : String
  op3 : String
  val3 : Nat
deriving DecidableEq

/-- Python's `<<` on unbounded ints (the shift amounts in `HASH_STAGES`
are non-negative). -/
def pyShiftLeft (v : Int) (k : Nat) : Int := v * 2 ^ k

/-- Debug keys `(round, batch_start + lane, "hash_stage", hi)` for one
`vcompare` op. -/
def hashKeys (vlen round_num batch_start hi : Nat) : List (Nat × Nat × String × Nat) :=
  (List.range vlen).map (fun lane => (round_num, batch_start + lane, "hash_stage", hi))

/-- Loop body of `HashBuilder.build_vhash` for stage number `hi`:
either the `multiply_add` rewrite or the standard three-op pattern,
followed by the `vcompare` debug op. -/
def vhashStage (b : KernelBuilder) (v_val v_tmp1 v_tmp2 : Int)
    (round_num batch_start hi : Nat) (st : HashStage) :
    Except String (List Op × KernelBuilder) :=
  if st.op1 = "+" ∧ st.op2 = "+" ∧ st.op3 = "<<" then
    match kb_vec_const b (1 + pyShiftLeft 1 st.val3) with
    | Except.error e => Except.error e
    | Except.ok (vc_mult, b1) =>
        match kb_vec_const b1 st.val1 with
        | Except.error e => Except.error e
        | Except.ok (vc1, b2) =>
            Except.ok
              ([("valu", Slot.mk "multiply_add"
                  [SlotArg.num v_val, SlotArg.num v_val,
                   SlotArg.num (vc_mult : Int), SlotArg.num (vc1 : Int)]),
                ("debug", Slot.mk "vcompare"
                  [SlotArg.num v_val,
                   SlotArg.keys (hashKeys b.vlen round_num batch_start hi)])], b2)
  else
    match kb_vec_const b st.val1 with
    | Except.error e => Except.error e
    | Except.ok (vc1, b1) =>
        match kb_vec_const b1 (st.val3 : Int) with
        | Except.error e => Except.error e
        | Except.ok (vc3, b2) =>
            Except.ok
              ([("valu", Slot.mk st.op1
                  [SlotArg.num v_tmp1, SlotArg.num v_val, SlotArg.num (vc1 : Int)]),
                ("valu", Slot.mk st.op3
                  [SlotArg.num v_tmp2, SlotArg.num v_val, SlotArg.num (vc3 : Int)]),
                ("valu", Slot.mk st.op2
                  [SlotArg.num v_val, SlotArg.num v_tmp1, SlotArg.num v_tmp2]),
                ("debug", Slot.mk "vcompare"
                  [SlotArg.num v_val,
                   SlotArg.keys (hashKeys b.vlen round_num batch_start hi)])], b2)

/-- Stage-indexed recursion for `build_vhash`. -/
def build_vhash_go (v_val v_tmp1 v_tmp2 : Int) (round_num batch_start : Nat) :
    KernelBuilder → Nat → List HashStage → Except String (List Op × KernelBuilder)
  | b, _, [] => Except.ok ([], b)
  | b, hi, st :: rest =>
      match vhashStage b v_val v_tmp1 v_tmp2 round_num batch_start hi st with
      | Except.error e => Except.error e
      | Except.ok (ops, b1) =>
          match build_vhash_go v_val v_tmp1 v_tmp2 round_num batch_start b1 (hi + 1) rest with
          | Except.error e => Except.error e
          | Except.ok (ops1, b2) => Except.ok (ops ++ ops1, b2)

/-- `HashBuilder.build_vhash` over a stage table. -/
def build_vhash (b : KernelBuilder) (v_val v_tmp1 v_tmp2 : Int)
    (round_num batch_start : Nat) (stages : List HashStage) :
    Except String (List Op × KernelBuilder) :=
  build_vhash_go v_val v_tmp1 v_tmp2 round_num batch_start b 0 stages

/-- Loop body of `HashBuilder.build_vhash_interleaved` for stage `hi`
over `batches_info` entries `(v_val, v_tmp1, v_tmp2, batch_start)`. -/
def vhashInterStage (b : KernelBuilder) (batches : List (Int × Int × Int × Nat))
    (round_num hi : Nat) (st : HashStage) :
    Except String (List Op × KernelBuilder) :=
  if st.op1 = "+" ∧ st.op2 = "+" ∧ st.op3 = "<<" then
    match kb_vec_const b (1 + pyShiftLeft 1 st.val3) with
    | Except.error e => Except.error e
    | Except.ok (vc_mult, b1) =>
        match kb_vec_const b1 st.val1 with
        | Except.error e => Except.error e
        | Except.ok (vc1, b2) =>
            Except.ok
              (batches.flatMap (fun info =>
                [("valu", Slot.mk "multiply_add"
                    [SlotArg.num info.1, SlotArg.num info.1,
                     SlotArg.num (vc_mult : Int), SlotArg.num (vc1 : Int)]),
                 ("debug", Slot.mk "vcompare"
                    [SlotArg.num info.1,
                     SlotArg.keys (hashKeys b.vlen round_num info.2.2.2 hi)])]), b2)
  else
    match kb_vec_const b st.val1 with
    | Except.error e => Except.error e
    | Except.ok (vc1, b1) =>
        match kb_vec_const b1 (st.val3 : Int) with
        | Except.error e => Except.error e
        | Except.ok (vc3, b2) =>
            Except.ok
              (batches.flatMap (fun info =>
                [("valu", Slot.mk st.op1
                    [SlotArg.num info.2.1, SlotArg.num info.1, SlotArg.num (vc1 : Int)]),
                 ("valu", Slot.mk st.op3
                    [SlotArg.num info.2.2.1, SlotArg.num info.1, SlotArg.num (vc3 : Int)])]) ++
               batches.flatMap (fun info =>
                [("valu", Slot.mk st.op2
                    [SlotArg.num info.1, SlotArg.num info.2.1, SlotArg.num info.2.2.1]),
                 ("debug", Slot.mk "vcompare"
                    [SlotArg.num info.1,
                     SlotArg.keys (hashKeys b.vlen round_num info.2.2.2 hi)])]), b2)

/-- Stage-indexed recursion for `build_vhash_interleaved`. -/
def build_vhash_interleaved_go (batches : List (Int × Int × Int × Nat)) (round_num : Nat) :
    KernelBuilder → Nat → List HashStage → Except String (List Op × KernelBuilder)
  | b, _, [] => Except.ok ([], b)
  | b, hi, st :: rest =>
      match vhashInterStage b batches round_num hi st with
      | Except.error e => Except.error e
      | Except.ok (ops, b1) =>
          match build_vhash_interleaved_go batches round_num b1 (hi + 1) rest with
          | Except.error e => Except.error e
          | Except.ok (ops1, b2) => Except.ok (ops ++ ops1, b2)

/-- `HashBuilder.build_vhash_interleaved` over a stage table. -/
def build_vhash_interleaved (b : KernelBuilder) (batches : List (Int × Int × Int × Nat))
    (round_num : Nat) (stages : List HashStage) :
    Except String (List Op × KernelBuilder) :=
  build_vhash_interleaved_go batches round_num b 0 stages

/-- C8: for a hash stage with `op1 = +`, `op2 = +`, `op3 = <<`, the
vectorised hash emits exactly one `valu multiply_add` (plus the debug
`vcompare`) per batch, using the vector constants `1 + 2^val3` and
`val1`, and the rewrite `v * (1 + 2^val3) + val1` agrees with the
original `(v + val1) + (v << val3)` on every integer. -/
theorem claim_C8_multiply_add_rewrite
    (b b1 b2 : KernelBuilder) (st : HashStage)
    (v_val v_tmp1 v_tmp2 : Int) (round_num batch_start hi : Nat)
    (batches : List (Int × Int × Int × Nat)) (a1 a2 : Nat)
    (h1 : st.op1 = "+") (h2 : st.op2 = "+") (h3 : st.op3 = "<<")
    (hm : kb_vec_const b (1 + pyShiftLeft 1 st.val3) = Except.ok (a1, b1))
    (hv : kb_vec_const b1 st.val1 = Except.ok (a2, b2)) :
    vhashStage b v_val v_tmp1 v_tmp2 round_num batch_start hi st =
      Except.ok
        ([("valu", Slot.mk "multiply_add"
            [SlotArg.num v_val, SlotArg.num v_val,
             SlotArg.num (a1 : Int), SlotArg.num (a2 : Int)]),
          ("debug", Slot.mk "vcompare"
            [SlotArg.num v_val,
             SlotArg.keys (hashKeys b.vlen round_num batch_start hi)])], b2) ∧
    vhashInterStage b batches round_num hi st =
      Except.ok
        (batches.flatMap (fun info =>
          [("valu", Slot.mk "multiply_add"
              [SlotArg.num info.1, SlotArg.num info.1,
               SlotArg.num (a1 : Int), SlotArg.num (a2 : Int)]),
           ("debug", Slot.mk "vcompare"
              [SlotArg.num info.1,
               SlotArg.keys (hashKeys b.vlen round_num info.2.2.2 hi)])]), b2) ∧
    (∀ v : Int, (v + st.val1) + pyShiftLeft v st.val3 =
      v * (1 + pyShiftLeft 1 st.val3) + st.val1) := by
  refine ⟨?_, ?_, ?_⟩
  · unfold vhashStage
    rw [if_pos ⟨h1, h2, h3⟩]
    simp only [hm, hv]
  · unfold vhashInterStage
    rw [if_pos ⟨h1, h2, h3⟩]
    simp only [hm, hv]
  · intro v
    unfold pyShiftLeft
    ring

/-- Witness for C8: the stage `(+, 5, +, <<, 3)` on a fresh driver with
`vlen = 2` and 100 scratch words; the multiplier constant `9` lands at
vector address 1 and the additive constant `5` at vector address 4. -/
theorem claim_C8_multiply_add_rewrite_witness :
    vhashStage (KernelBuilder.mk 2 100 [] [] [] 0 [] []) 50 60 70 4 8 0
        (HashStage.mk "+" 5 "+" "<<" 3) =
      Except.ok
        ([("valu", Slot.mk "multiply_add"
            [SlotArg.num 50, SlotArg.num 50, SlotArg.num (1 : Int), SlotArg.num (4 : Int)]),
          ("debug", Slot.mk "vcompare"
            [SlotArg.num 50, SlotArg.keys (hashKeys 2 4 8 0)])],
          (KernelBuilder.mk 2 100
            [[("load", [Slot.mk "const" [SlotArg.num 0, SlotArg.num 9]])],
             [("valu", [Slot.mk "vbroadcast" [SlotArg.num 1, SlotArg.num 0]])],
             [("load", [Slot.mk "const" [SlotArg.num 3, SlotArg.num 5]])],
             [("valu", [Slot.mk "vbroadcast" [SlotArg.num 4, SlotArg.num 3]])]]
            [("vc_5", 4), ("vc_9", 1)]
            [(4, "vc_5", 2), (1, "vc_9", 2)]
            6 [((5 : Int), 3), ((9 : Int), 0)] [((5 : Int), 4), ((9 : Int), 1)])) ∧
      (2 + 5 + pyShiftLeft 2 3 : Int) = 2 * (1 + pyShiftLeft 1 3) + 5 := by
  have h := claim_C8_multiply_add_rewrite
    (KernelBuilder.mk 2 100 [] [] [] 0 [] [])
    (KernelBuilder.mk 2 100
      [[("load", [Slot.mk "const" [SlotArg.num 0, SlotArg.num 9]])],
       [("valu", [Slot.mk "vbroadcast" [SlotArg.num 1, SlotArg.num 0]])]]
      [("vc_9", 1)] [(1, "vc_9", 2)] 3 [((9 : Int), 0)] [((9 : Int), 1)])
    (KernelBuilder.mk 2 100
      [[("load", [Slot.mk "const" [SlotArg.num 0, SlotArg.num 9]])],
       [("valu", [Slot.mk "vbroadcast" [SlotArg.num 1, SlotArg.num 0]])],
       [("load", [Slot.mk "const" [SlotArg.num 3, SlotArg.num 5]])],
       [("valu", [Slot.mk "vbroadcast" [SlotArg.num 4, SlotArg.num 3]])]]
      [("vc_5", 4), ("vc_9", 1)] [(4, "vc_5", 2), (1, "vc_9", 2)]
      6 [((5 : Int), 3), ((9 : Int), 0)] [((5 : Int), 4), ((9 : Int), 1)])
    (HashStage.mk "+" 5 "+" "<<" 3) 50 60 70 4 8 0 [] 1 4 rfl rfl rfl rfl rfl
  exact ⟨h.1, h.2.2 2⟩

/-! ## `src/kernel_traversal.py`: initialization-phase header prologue -/

/-- The seven memory-header variables, in their fixed order. -/
def init_vars : List String :=
  ["rounds", "n_nodes", "batch_size", "forest_height", "forest_values_p",
   "inp_indices_p", "inp_values_p"]

/-- `for v in init_vars: self.allocator.alloc_scratch(v, 1)`. -/
def allocInitVars : KernelBuilder → List String → Except String KernelBuilder
  | b, [] => Except.ok b
  | b, v :: rest =>
      match kb_alloc_scratch b (some v) 1 with
      | Except.error e => Except.error e
      | Except.ok (_, b1) => allocInitVars b1 rest

/-- The header-load emission loop: for index `i` and variable `v`,
`add("load", ("const", tmp1, i))` then
`add("load", ("load", scratch[v], tmp1))`. -/
def emitHeaderLoads (tmp1 : Nat) : KernelBuilder → Nat → List String → KernelBuilder
  | b, _, [] => b
  | b, i, v :: rest =>
      let b1 := kb_add b "load"
        (Slot.mk "const" [SlotArg.num (tmp1 : Int), SlotArg.num (i : Int)])
      let b2 := kb_add b1 "load"
        (Slot.mk "load"
          [SlotArg.num (((alist_get b1.scratch v).getD 0 : Nat) : Int),
           SlotArg.num (tmp1 : Int)])
      emitHeaderLoads tmp1 b2 (i + 1) rest

/-- Header prologue of `TraversalBuilder._build_initialization`:
allocate `tmp1` and the seven named header words, emit the fourteen
header-load bundles through the driver's `add` (outside the
scheduler), then emit the `flow pause`. -/
def buildInitHeader (b : KernelBuilder) : Except String KernelBuilder :=
  match kb_alloc_scratch b (some "tmp1") 1 with
  | Except.error e => Except.error e
  | Except.ok (tmp1, b1) =>
      match allocInitVars b1 init_vars with
      | Except.error e => Except.error e
      | Except.ok b2 =>
          let b3 := emitHeaderLoads tmp1 b2 0 init_vars
          Except.ok (kb_add b3 "flow" (Slot.mk "pause" []))

/-- The fifteen bundles the prologue appends when `tmp1` sits at
address `p`: for each header index `i`, the `load const` into `tmp1`
and the `load` into the named slot `p + 1 + i`, then the pause. -/
def headerBundles (p : Nat) : List Bundle :=
  ((List.range 7).flatMap fun i =>
    [[("load", [Slot.mk "const" [SlotArg.num (p : Int), SlotArg.num (i : Int)]])],
     [("load", [Slot.mk "load" [SlotArg.num ((p + 1 + i : Nat) : Int), SlotArg.num (p : Int)]])]]) ++
  [[("flow", [Slot.mk "pause" []])]]

theorem kb_alloc_scratch_ok (b : KernelBuilder) (n : String) (len : Nat)
    (h : b.scratch_ptr + len ≤ b.scratch_size) :
    kb_alloc_scratch b (some n) len =
      Except.ok (b.scratch_ptr,
        { b with scratch := (n, b.scratch_ptr) :: b.scratch,
                 scratch_debug := (b.scratch_ptr, n, len) :: b.scratch_debug,
                 scratch_ptr := b.scratch_ptr + len }) := by
  unfold kb_alloc_scratch
  rw [if_pos h]

/-- C9: the initialization prologue appends, in order and as one-op
bundles outside the scheduler, for each header index `i = 0..6`: a
`load const` placing `i` into `tmp1` and a `load` of `mem[tmp1]` into
the named header slot (`rounds` at `tmp1+1` through `inp_values_p` at
`tmp1+7`), with the `flow pause` bundle after all fourteen header-load
bundles. -/
theorem claim_C9_header_loads (b : KernelBuilder)
    (h : b.scratch_ptr + 8 ≤ b.scratch_size) :
    (buildInitHeader b).map (fun b1 => b1.instrs) =
      Except.ok (b.instrs ++ headerBundles b.scratch_ptr) ∧
    (buildInitHeader b).map (fun b1 => alist_get b1.scratch "tmp1") =
      Except.ok (some b.scratch_ptr) ∧
    (buildInitHeader b).map (fun b1 => alist_get b1.scratch "rounds") =
      Except.ok (some (b.scratch_ptr + 1)) ∧
    (buildInitHeader b).map (fun b1 => alist_get b1.scratch "n_nodes") =
      Except.ok (some (b.scratch_ptr + 2)) ∧
    (buildInitHeader b).map (fun b1 => alist_get b1.scratch "batch_size") =
      Except.ok (some (b.scratch_ptr + 3)) ∧
    (buildInitHeader b).map (fun b1 => alist_get b1.scratch "forest_height") =
      Except.ok (some (b.scratch_ptr + 4)) ∧
    (buildInitHeader b).map (fun b1 => alist_get b1.scratch "forest_values_p") =
      Except.ok (some (b.scratch_ptr + 5)) ∧
    (buildInitHeader b).map (fun b1 => alist_get b1.scratch "inp_indices_p") =
      Except.ok (some (b.scratch_ptr + 6)) ∧
    (buildInitHeader b).map (fun b1 => alist_get b1.scratch "inp_values_p") =
      Except.ok (some (b.scratch_ptr + 7)) := by
  have c1 : b.scratch_ptr + 1 ≤ b.scratch_size := by omega
  have c2 : b.scratch_ptr + 1 + 1 ≤ b.scratch_size := by omega
  have c3 : b.scratch_ptr + 1 + 1 + 1 ≤ b.scratch_size := by omega
  have c4 : b.scratch_ptr + 1 + 1 + 1 + 1 ≤ b.scratch_size := by omega
  have c5 : b.scratch_ptr + 1 + 1 + 1 + 1 + 1 ≤ b.scratch_size := by omega
  have c6 : b.scratch_ptr + 1 + 1 + 1 + 1 + 1 + 1 ≤ b.scratch_size := by omega
  have c7 : b.scratch_ptr + 1 + 1 + 1 + 1 + 1 + 1 + 1 ≤ b.scratch_size := by omega
  have c8 : b.scratch_ptr + 1 + 1 + 1 + 1 + 1 + 1 + 1 + 1 ≤ b.scratch_size := by omega
  refine ⟨?_, ?_, ?_, ?_, ?_, ?_, ?_, ?_, ?_⟩ <;>
    simp only [buildInitHeader, allocInitVars, init_vars, emitHeaderLoads, kb_alloc_scratch,
      kb_add, alist_get, headerBundles, c1, c2, c3, c4, c5, c6, c7, c8, if_true, Except.map,
      List.flatMap, List.range, List.range.loop, List.map, List.append_assoc, List.cons_append,
      List.nil_append, List.singleton_append, String.reduceEq, List.flatten, Option.getD_some,
      if_false, Except.ok.injEq, List.append_right_inj, List.cons.injEq, Prod.mk.injEq,
      Slot.mk.injEq, SlotArg.num.injEq, Nat.cast_inj, and_true, true_and, List.nil_eq,
      and_assoc]

/-- Witness for C9 on a fresh driver with 100 scratch words. -/
theorem claim_C9_header_loads_witness :
    (buildInitHeader (KernelBuilder.mk 8 100 [] [] [] 0 [] [])).map
        (fun b1 => b1.instrs) =
      Except.ok ([] ++ headerBundles 0) ∧
    (buildInitHeader (KernelBuilder.mk 8 100 [] [] [] 0 [] [])).map
        (fun b1 => alist_get b1.scratch "rounds") = Except.ok (some 1) := by
  have h := claim_C9_header_loads (KernelBuilder.mk 8 100 [] [] [] 0 [] []) (by decide)
  exact ⟨h.1, h.2.2.1⟩

/-! ## Scheduler invariants: basic lemmas -/

theorem opWrites_debug (cfg : Config) (slots : List Op) (i : Nat)
    (h : opEngine slots i = "debug") : opWrites cfg slots i = ∅ := by
  unfold opWrites get_writes
  rw [h]
  simp

theorem opReads_debug (cfg : Config) (slots : List Op) (i : Nat)
    (h : opEngine slots i = "debug") : opReads cfg slots i = ∅ := by
  unfold opReads get_reads
  rw [h]
  simp

theorem engine_ne_debug_of_mem_writes (cfg : Config) (slots : List Op) (i : Nat)
    (x : Int) (h : x ∈ opWrites cfg slots i) : opEngine slots i ≠ "debug" := by
  intro he
  rw [opWrites_debug cfg slots i he] at h
  exact absurd h (Finset.not_mem_empty x)

theorem engine_ne_debug_of_mem_reads (cfg : Config) (slots : List Op) (i : Nat)
    (x : Int) (h : x ∈ opReads cfg slots i) : opEngine slots i ≠ "debug" := by
  intro he
  rw [opReads_debug cfg slots i he] at h
  exact absurd h (Finset.not_mem_empty x)

theorem predAt_debug (cfg : Config) (slots : List Op) (i : Nat)
    (h : opEngine slots i = "debug") : predAt cfg slots i = ∅ := by
  unfold predAt
  rw [h]
  simp

theorem warPredAt_debug (cfg : Config) (slots : List Op) (i : Nat)
    (h : opEngine slots i = "debug") : warPredAt cfg slots i = ∅ := by
  unfold warPredAt
  rw [h]
  simp

theorem lastWriteUpto_exists (cfg : Config) (slots : List Op) (x : Int) :
    ∀ i j, j < i → x ∈ opWrites cfg slots j →
      ∃ k, lastWriteUpto cfg slots i x = some k ∧ j ≤ k ∧ k < i ∧
        x ∈ opWrites cfg slots k := by
  intro i
  induction i with
  | zero => intro j hj; omega
  | succ m ih =>
      intro j hj hw
      by_cases hjm : j = m
      · subst hjm
        refine ⟨j, ?_, le_rfl, Nat.lt_succ_self j, hw⟩
        unfold lastWriteUpto
        rw [if_neg (engine_ne_debug_of_mem_writes cfg slots j x hw), if_pos hw]
      · have hjm2 : j < m := by omega
        obtain ⟨k, h1, h2, h3, h4⟩ := ih j hjm2 hw
        unfold lastWriteUpto
        by_cases hd : opEngine slots m = "debug"
        · rw [if_pos hd]
          exact ⟨k, h1, h2, by omega, h4⟩
        · rw [if_neg hd]
          by_cases hwm : x ∈ opWrites cfg slots m
          · rw [if_pos hwm]
            exact ⟨m, rfl, by omega, Nat.lt_succ_self m, hwm⟩
          · rw [if_neg hwm]
            exact ⟨k, h1, h2, by omega, h4⟩

theorem lastWriteUpto_sound (cfg : Config) (slots : List Op) (x : Int) :
    ∀ i k, lastWriteUpto cfg slots i x = some k →
      k < i ∧ x ∈ opWrites cfg slots k := by
  intro i
  induction i with
  | zero => intro k h; exact absurd h (by unfold lastWriteUpto; simp)
  | succ m ih =>
      intro k h
      unfold lastWriteUpto at h
      by_cases hd : opEngine slots m = "debug"
      · rw [if_pos hd] at h
        obtain ⟨h1, h2⟩ := ih k h
        exact ⟨by omega, h2⟩
      · rw [if_neg hd] at h
        by_cases hwm : x ∈ opWrites cfg slots m
        · rw [if_pos hwm] at h
          injection h with hmk
          subst hmk
          exact ⟨Nat.lt_succ_self m, hwm⟩
        · rw [if_neg hwm] at h
          obtain ⟨h1, h2⟩ := ih k h
          exact ⟨by omega, h2⟩

theorem mem_predAt (cfg : Config) (slots : List Op) (i k : Nat) (x : Int)
    (hd : opEngine slots i ≠ "debug")
    (hx : x ∈ opReads cfg slots i ∪ opWrites cfg slots i)
    (hl : lastWriteUpto cfg slots i x = some k) : k ∈ predAt cfg slots i := by
  unfold predAt
  rw [if_neg hd]
  rw [Finset.mem_biUnion]
  exact ⟨x, hx, by rw [hl]; simp⟩

theorem mem_lastReadUpto (cfg : Config) (slots : List Op) (x : Int) :
    ∀ i j, j < i → x ∈ opReads cfg slots j → j ∈ lastReadUpto cfg slots i x := by
  intro i
  induction i with
  | zero => intro j hj; omega
  | succ m ih =>
      intro j hj hr
      unfold lastReadUpto
      by_cases hjm : j = m
      · subst hjm
        rw [if_neg (engine_ne_debug_of_mem_reads cfg slots j x hr), if_pos hr]
        exact Finset.mem_insert_self j _
      · have hjm2 : j < m := by omega
        have hmem := ih j hjm2 hr
        by_cases hd : opEngine slots m = "debug"
        · rw [if_pos hd]; exact hmem
        · rw [if_neg hd]
          by_cases hrm : x ∈ opReads cfg slots m
          · rw [if_pos hrm]; exact Finset.mem_insert_of_mem hmem
          · rw [if_neg hrm]; exact hmem

theorem mem_warPredAt (cfg : Config) (slots : List Op) (i j : Nat) (x : Int)
    (hd : opEngine slots i ≠ "debug") (hj : j < i)
    (hw : x ∈ opWrites cfg slots i) (hr : x ∈ opReads cfg slots j) :
    j ∈ warPredAt cfg slots i := by
  unfold warPredAt
  rw [if_neg hd]
  rw [Finset.mem_biUnion]
  refine ⟨x, hw, ?_⟩
  rw [Finset.mem_filter]
  exact ⟨mem_lastReadUpto cfg slots x i j hj hr, by simpa using hj⟩

/-! Sorting and bundle helper lemmas -/

theorem insertLE_perm (le : Nat → Nat → Bool) (x : Nat) :
    ∀ l : List Nat, (insertLE le x l).Perm (x :: l) := by
  intro l
  induction l with
  | nil => simp [insertLE]
  | cons y ys ih =>
      unfold insertLE
      by_cases hc : le x y
      · rw [if_pos hc]
      · rw [if_neg hc]
        exact (List.Perm.cons y ih).trans (List.Perm.swap x y ys)

theorem sortLE_perm (le : Nat → Nat → Bool) (l : List Nat) :
    (sortLE le l).Perm l := by
  induction l with
  | nil => simp [sortLE]
  | cons y ys ih =>
      unfold sortLE
      simp only [List.foldr_cons]
      exact (insertLE_perm le y (sortLE le ys)).trans (List.Perm.cons y ih)

theorem sortLE_mem (le : Nat → Nat → Bool) (l : List Nat) (x : Nat) :
    x ∈ sortLE le l ↔ x ∈ l := (sortLE_perm le l).mem_iff

theorem sortLE_nodup (le : Nat → Nat → Bool) (l : List Nat) (h : l.Nodup) :
    (sortLE le l).Nodup := ((sortLE_perm le l).nodup_iff).2 h

theorem engineSlots_bundleAdd (b : Bundle) (e0 e : String) (s : Slot) :
    engineSlots (bundleAdd b e0 s) e =
      if e0 = e then engineSlots b e ++ [s] else engineSlots b e := by
  induction b with
  | nil =>
      by_cases hc : e0 = e <;>
        simp [bundleAdd, engineSlots, alist_get, hc]
  | cons p rest ih =>
      obtain ⟨k, ss⟩ := p
      unfold bundleAdd
      by_cases hk : k = e0
      · rw [if_pos hk]
        subst hk
        by_cases hc : k = e
        · subst hc
          simp [engineSlots, alist_get]
        · simp [engineSlots, alist_get, hc]
      · rw [if_neg hk]
        by_cases hc : k = e
        · subst hc
          have hne : ¬ e0 = k := fun hx => hk hx.symm
          simp [engineSlots, alist_get, hne, ih]
        · simp only [engineSlots, alist_get, hc, if_neg]
          exact ih

theorem bundleAdd_ne_nil (b : Bundle) (e : String) (s : Slot) :
    bundleAdd b e s ≠ [] := by
  cases b with
  | nil => simp [bundleAdd]
  | cons p rest =>
      obtain ⟨k, ss⟩ := p
      unfold bundleAdd
      by_cases hk : k = e <;> simp [hk]

theorem countsGet_countsInc (cs : List (String × Nat)) (e0 e : String) :
    countsGet (countsInc cs e0) e =
      if e0 = e then countsGet cs e + 1 else countsGet cs e := by
  induction cs with
  | nil =>
      by_cases hc : e0 = e <;> simp [countsInc, countsGet, alist_get, hc]
  | cons p rest ih =>
      obtain ⟨k, v⟩ := p
      unfold countsInc
      by_cases hk : k = e0
      · rw [if_pos hk]
        subst hk
        by_cases hc : k = e
        · subst hc
          simp [countsGet, alist_get]
        · simp [countsGet, alist_get, hc]
      · rw [if_neg hk]
        by_cases hc : k = e
        · subst hc
          have hne : ¬ e0 = k := fun hx => hk hx.symm
          simp [countsGet, alist_get, hne]
        · simp only [countsGet, alist_get, hc, if_neg]
          exact ih

/-- Intra-bundle hazard freedom between an earlier-placed op `i` and a
later-placed op `j`: no WAW and no RAW within the cycle (WAR is
allowed). -/
def HazFree (cfg : Config) (slots : List Op) (i j : Nat) : Prop :=
  opWrites cfg slots i ∩ opWrites cfg slots j = ∅ ∧
  opWrites cfg slots i ∩ opReads cfg slots j = ∅

/-- All hard predecessors of `j` lie in the given (already emitted)
scheduled set. -/
def PredsDone (cfg : Config) (slots : List Op) (base : Finset Nat) (j : Nat) : Prop :=
  ∀ k ∈ predAt cfg slots j, k ∈ base

/-- Invariant of the forming cycle, relative to the set `base` of ops
scheduled in strictly earlier cycles. -/
structure CycleInv (cfg : Config) (slots : List Op) (base : Finset Nat)
    (cs : CycleState) : Prop where
  schedEq : ∀ i, i ∈ cs.scheduled ↔ i ∈ base ∨ i ∈ cs.thisCycle
  tcNew : ∀ i ∈ cs.thisCycle, i ∉ base
  tcNodup : cs.thisCycle.Nodup
  tcHard : ∀ i ∈ cs.thisCycle, PredsDone cfg slots base i
  tcWar : ∀ i ∈ cs.thisCycle, ∀ j ∈ warPredAt cfg slots i, j ∈ cs.scheduled
  tcPair : List.Pairwise (HazFree cfg slots) cs.thisCycle
  bwEq : ∀ x, x ∈ cs.bundleWrites ↔ ∃ i ∈ cs.thisCycle, x ∈ opWrites cfg slots i
  bCorr : ∀ e, engineSlots cs.bundle e =
      (cs.thisCycle.filter (fun i => opEngine slots i = e)).map (opSlot slots)
  cntEq : ∀ e, e ≠ "debug" →
      countsGet cs.counts e =
        (cs.thisCycle.filter (fun i => opEngine slots i = e)).length
  cntLe : ∀ e, e ≠ "debug" → countsGet cs.counts e ≤ limitsGet cfg e
  emptyIff : cs.bundle = [] ↔ cs.thisCycle = []

theorem mem_thisCycle_scheduled {cfg : Config} {slots : List Op} {base : Finset Nat}
    {cs : CycleState} (h : CycleInv cfg slots base cs) {i : Nat}
    (hi : i ∈ cs.thisCycle) : i ∈ cs.scheduled :=
  (h.schedEq i).2 (Or.inr hi)

/-- Placing one ready op preserves the cycle invariant; the op is
either packed (appended to `thisCycle` and marked scheduled) or
deferred to `new_ready` with the state untouched. -/
theorem placeOp_pres (cfg : Config) (slots : List Op) (base : Finset Nat)
    (cs : CycleState) (nr : List Nat) (prog : Bool) (i : Nat)
    (hInv : CycleInv cfg slots base cs)
    (hi1 : i ∉ cs.scheduled) (hi2 : PredsDone cfg slots base i) :
    CycleInv cfg slots base (placeOp cfg slots (cs, nr, prog) i).1 ∧
      (((placeOp cfg slots (cs, nr, prog) i).1.thisCycle = cs.thisCycle ++ [i] ∧
        (placeOp cfg slots (cs, nr, prog) i).1.scheduled = insert i cs.scheduled ∧
        (placeOp cfg slots (cs, nr, prog) i).2.1 = nr) ∨
       ((placeOp cfg slots (cs, nr, prog) i).1 = cs ∧
        (placeOp cfg slots (cs, nr, prog) i).2.1 = nr ++ [i])) := by
  have hitc : i ∉ cs.thisCycle := fun hx => hi1 (mem_thisCycle_scheduled hInv hx)
  have hib : i ∉ base := fun hx => hi1 ((hInv.schedEq i).2 (Or.inl hx))
  unfold placeOp
  dsimp only
  by_cases hd : opEngine slots i = "debug"
  · rw [if_pos hd]
    refine ⟨?_, Or.inl ⟨rfl, rfl, rfl⟩⟩
    have hwi : opWrites cfg slots i = ∅ := opWrites_debug cfg slots i hd
    have hri : opReads cfg slots i = ∅ := opReads_debug cfg slots i hd
    refine ⟨?_, ?_, ?_, ?_, ?_, ?_, ?_, ?_, ?_, ?_, ?_⟩
    · intro j
      simp only [Finset.mem_insert, hInv.schedEq j, List.mem_append,
        List.mem_singleton]
      tauto
    · intro j hj
      rcases List.mem_append.1 hj with hj1 | hj1
      · exact hInv.tcNew j hj1
      · rw [List.mem_singleton] at hj1
        subst hj1
        exact hib
    · rw [List.nodup_append]
      exact ⟨hInv.tcNodup, List.nodup_singleton i, by simpa using hitc⟩
    · intro j hj
      rcases List.mem_append.1 hj with hj1 | hj1
      · exact hInv.tcHard j hj1
      · rw [List.mem_singleton] at hj1
        subst hj1
        exact hi2
    · intro j hj k hk
      rcases List.mem_append.1 hj with hj1 | hj1
      · exact Finset.mem_insert_of_mem (hInv.tcWar j hj1 k hk)
      · rw [List.mem_singleton] at hj1
        subst hj1
        rw [warPredAt_debug cfg slots j hd] at hk
        exact absurd hk (Finset.not_mem_empty k)
    · rw [List.pairwise_append]
      refine ⟨hInv.tcPair, List.pairwise_singleton _ i, ?_⟩
      intro a ha b hb
      rw [List.mem_singleton] at hb
      subst hb
      exact ⟨by rw [hwi]; exact Finset.inter_empty _, by rw [hri]; exact Finset.inter_empty _⟩
    · intro x
      rw [hInv.bwEq x]
      constructor
      · rintro ⟨j, hj, hx⟩
        exact ⟨j, List.mem_append.2 (Or.inl hj), hx⟩
      · rintro ⟨j, hj, hx⟩
        rcases List.mem_append.1 hj with hj1 | hj1
        · exact ⟨j, hj1, hx⟩
        · rw [List.mem_singleton] at hj1
          subst hj1
          rw [hwi] at hx
          exact absurd hx (Finset.not_mem_empty x)
    · intro e
      rw [engineSlots_bundleAdd, List.filter_append, List.map_append]
      by_cases hc : opEngine slots i = e
      · rw [if_pos hc, hInv.bCorr e]
        simp [List.filter_cons, hc, opSlot]
      · rw [if_neg hc, hInv.bCorr e]
        simp [List.filter_cons, hc]
    · intro e he
      rw [hInv.cntEq e he, List.filter_append]
      have hc : ¬ opEngine slots i = e := fun hx => he (hx ▸ hd)
      simp [List.filter_cons, hc]
    · exact hInv.cntLe
    · constructor
      · intro hx
        exact absurd hx (bundleAdd_ne_nil _ _ _)
      · intro hx
        exact absurd hx (by simp)
  · rw [if_neg hd]
    by_cases g1 : ∃ p ∈ warPredAt cfg slots i, p ∉ cs.scheduled ∧ p ∉ cs.thisCycle
    · rw [if_pos g1]
      exact ⟨hInv, Or.inr ⟨rfl, rfl⟩⟩
    · rw [if_neg g1]
      by_cases g2 : limitsGet cfg (opEngine slots i) ≤ countsGet cs.counts (opEngine slots i)
      · rw [if_pos g2]
        exact ⟨hInv, Or.inr ⟨rfl, rfl⟩⟩
      · rw [if_neg g2]
        by_cases g3 : ((opReads cfg slots i) ∩ cs.bundleWrites).Nonempty
        · rw [if_pos g3]
          exact ⟨hInv, Or.inr ⟨rfl, rfl⟩⟩
        · rw [if_neg g3]
          by_cases g4 : ((opWrites cfg slots i) ∩ cs.bundleWrites).Nonempty
          · rw [if_pos g4]
            exact ⟨hInv, Or.inr ⟨rfl, rfl⟩⟩
          · rw [if_neg g4]
            refine ⟨?_, Or.inl ⟨rfl, rfl, rfl⟩⟩
            refine ⟨?_, ?_, ?_, ?_, ?_, ?_, ?_, ?_, ?_, ?_, ?_⟩
            · intro j
              simp only [Finset.mem_insert, hInv.schedEq j, List.mem_append,
                List.mem_singleton]
              tauto
            · intro j hj
              rcases List.mem_append.1 hj with hj1 | hj1
              · exact hInv.tcNew j hj1
              · rw [List.mem_singleton] at hj1
                subst hj1
                exact hib
            · rw [List.nodup_append]
              exact ⟨hInv.tcNodup, List.nodup_singleton i, by simpa using hitc⟩
            · intro j hj
              rcases List.mem_append.1 hj with hj1 | hj1
              · exact hInv.tcHard j hj1
              · rw [List.mem_singleton] at hj1
                subst hj1
                exact hi2
            · intro j hj k hk
              rcases List.mem_append.1 hj with hj1 | hj1
              · exact Finset.mem_insert_of_mem (hInv.tcWar j hj1 k hk)
              · rw [List.mem_singleton] at hj1
                subst hj1
                by_cases hks : k ∈ cs.scheduled
                · exact Finset.mem_insert_of_mem hks
                · by_cases hkt : k ∈ cs.thisCycle
                  · exact Finset.mem_insert_of_mem (mem_thisCycle_scheduled hInv hkt)
                  · exact absurd ⟨k, hk, hks, hkt⟩ g1
            · rw [List.pairwise_append]
              refine ⟨hInv.tcPair, List.pairwise_singleton _ i, ?_⟩
              intro a ha b hb
              rw [List.mem_singleton] at hb
              subst hb
              constructor
              · rw [Finset.eq_empty_iff_forall_not_mem]
                intro x hx
                rw [Finset.mem_inter] at hx
                exact g4 ⟨x, Finset.mem_inter.2 ⟨hx.2, (hInv.bwEq x).2 ⟨a, ha, hx.1⟩⟩⟩
              · rw [Finset.eq_empty_iff_forall_not_mem]
                intro x hx
                rw [Finset.mem_inter] at hx
                exact g3 ⟨x, Finset.mem_inter.2 ⟨hx.2, (hInv.bwEq x).2 ⟨a, ha, hx.1⟩⟩⟩
            · intro x
              rw [Finset.mem_union, hInv.bwEq x]
              constructor
              · rintro (⟨j, hj, hx⟩ | hx)
                · exact ⟨j, List.mem_append.2 (Or.inl hj), hx⟩
                · exact ⟨i, List.mem_append.2 (Or.inr (List.mem_singleton.2 rfl)), hx⟩
              · rintro ⟨j, hj, hx⟩
                rcases List.mem_append.1 hj with hj1 | hj1
                · exact Or.inl ⟨j, hj1, hx⟩
                · rw [List.mem_singleton] at hj1
                  subst hj1
                  exact Or.inr hx
            · intro e
              rw [engineSlots_bundleAdd, List.filter_append, List.map_append]
              by_cases hc : opEngine slots i = e
              · rw [if_pos hc, hInv.bCorr e]
                simp [List.filter_cons, hc, opSlot]
              · rw [if_neg hc, hInv.bCorr e]
                simp [List.filter_cons, hc]
            · intro e he
              rw [countsGet_countsInc, List.filter_append]
              by_cases hc : opEngine slots i = e
              · rw [if_pos hc, hInv.cntEq e he]
                simp [List.filter_cons, hc]
              · rw [if_neg hc, hInv.cntEq e he]
                simp [List.filter_cons, hc]
            · intro e he
              rw [countsGet_countsInc]
              by_cases hc : opEngine slots i = e
              · rw [if_pos hc]
                have := hInv.cntEq e he
                rw [← hc] at *
                omega
              · rw [if_neg hc]
                exact hInv.cntLe e he
            · constructor
              · intro hx
                exact absurd hx (bundleAdd_ne_nil _ _ _)
              · intro hx
                exact absurd hx (by simp)

/-- Accumulator invariant for one bundle-fill pass: the cycle state is
invariant-respecting, and the deferred `new_ready` list holds distinct
unscheduled ops with satisfied hard dependencies. -/
def PassInv (cfg : Config) (slots : List Op) (base : Finset Nat)
    (p : CycleState × List Nat × Bool) : Prop :=
  CycleInv cfg slots base p.1 ∧ p.2.1.Nodup ∧
    ∀ j ∈ p.2.1, j ∉ p.1.scheduled ∧ PredsDone cfg slots base j

/-- Condition on the list of ops still to be attempted in this pass. -/
def PendOK (cfg : Config) (slots : List Op) (base : Finset Nat)
    (p : CycleState × List Nat × Bool) (rs : List Nat) : Prop :=
  rs.Nodup ∧ ∀ j ∈ rs, j ∉ p.1.scheduled ∧ PredsDone cfg slots base j ∧ j ∉ p.2.1

theorem foldl_placeOp_pres (cfg : Config) (slots : List Op) (base : Finset Nat) :
    ∀ (rs : List Nat) (p : CycleState × List Nat × Bool),
      PassInv cfg slots base p → PendOK cfg slots base p rs →
      PassInv cfg slots base (rs.foldl (placeOp cfg slots) p) ∧
        (∀ j ∈ p.1.thisCycle, j ∈ (rs.foldl (placeOp cfg slots) p).1.thisCycle) ∧
        (∀ j ∈ (rs.foldl (placeOp cfg slots) p).2.1, j ∈ p.2.1 ∨ j ∈ rs) := by
  intro rs
  induction rs with
  | nil => intro p hp _; exact ⟨hp, fun j hj => hj, fun j hj => Or.inl hj⟩
  | cons i rest ih =>
      intro p hp hpend
      obtain ⟨hInv, hnrN, hnr⟩ := hp
      obtain ⟨hrsN, hrs⟩ := hpend
      obtain ⟨hi1, hi2, hinr⟩ := hrs i (List.mem_cons_self i rest)
      obtain ⟨cs, nr, prog⟩ := p
      obtain ⟨hInv1, hcase⟩ := placeOp_pres cfg slots base cs nr prog i hInv hi1 hi2
      rw [List.foldl_cons]
      have hiRest : i ∉ rest := (List.nodup_cons.1 hrsN).1
      have hrestN : rest.Nodup := (List.nodup_cons.1 hrsN).2
      rcases hcase with ⟨htc, hsch, hnr1⟩ | ⟨hcs, hnr1⟩
      · -- placed
        have hp1 : PassInv cfg slots base (placeOp cfg slots (cs, nr, prog) i) := by
          refine ⟨hInv1, by rw [hnr1]; exact hnrN, ?_⟩
          intro j hj
          rw [hnr1] at hj
          obtain ⟨h1, h2⟩ := hnr j hj
          refine ⟨?_, h2⟩
          rw [hsch]
          intro hx
          rcases Finset.mem_insert.1 hx with hx1 | hx1
          · subst hx1
            exact hinr hj
          · exact h1 hx1
        have hpend1 : PendOK cfg slots base (placeOp cfg slots (cs, nr, prog) i) rest := by
          refine ⟨hrestN, ?_⟩
          intro j hj
          obtain ⟨h1, h2, h3⟩ := hrs j (List.mem_cons_of_mem i hj)
          refine ⟨?_, h2, ?_⟩
          · rw [hsch]
            intro hx
            rcases Finset.mem_insert.1 hx with hx1 | hx1
            · subst hx1
              exact hiRest hj
            · exact h1 hx1
          · rw [hnr1]
            exact h3
        obtain ⟨ha, hb, hc⟩ := ih _ hp1 hpend1
        refine ⟨ha, ?_, ?_⟩
        · intro j hj
          apply hb
          rw [htc]
          exact List.mem_append.2 (Or.inl hj)
        · intro j hj
          rcases hc j hj with hj1 | hj1
          · rw [hnr1] at hj1
            exact Or.inl hj1
          · exact Or.inr (List.mem_cons_of_mem i hj1)
      · -- deferred
        have hp1 : PassInv cfg slots base (placeOp cfg slots (cs, nr, prog) i) := by
          refine ⟨hInv1, ?_, ?_⟩
          · rw [hnr1]
            rw [List.nodup_append]
            refine ⟨hnrN, List.nodup_singleton i, ?_⟩
            intro a ha hb
            rw [List.mem_singleton] at hb
            subst hb
            exact hinr ha
          · intro j hj
            rw [hnr1] at hj
            rw [hcs]
            rcases List.mem_append.1 hj with hj1 | hj1
            · exact hnr j hj1
            · rw [List.mem_singleton] at hj1
              subst hj1
              exact ⟨hi1, hi2⟩
        have hpend1 : PendOK cfg slots base (placeOp cfg slots (cs, nr, prog) i) rest := by
          refine ⟨hrestN, ?_⟩
          intro j hj
          obtain ⟨h1, h2, h3⟩ := hrs j (List.mem_cons_of_mem i hj)
          refine ⟨by rw [hcs]; exact h1, h2, ?_⟩
          rw [hnr1]
          intro hx
          rcases List.mem_append.1 hx with hx1 | hx1
          · exact h3 hx1
          · rw [List.mem_singleton] at hx1
            subst hx1
            exact hiRest hj
        obtain ⟨ha, hb, hc⟩ := ih _ hp1 hpend1
        refine ⟨ha, ?_, ?_⟩
        · intro j hj
          apply hb
          rw [hcs]
          exact hj
        · intro j hj
          rcases hc j hj with hj1 | hj1
          · rw [hnr1] at hj1
            rcases List.mem_append.1 hj1 with hx1 | hx1
            · exact Or.inl hx1
            · rw [List.mem_singleton] at hx1
              subst hx1
              exact Or.inr (List.mem_cons_self j rest)
          · exact Or.inr (List.mem_cons_of_mem i hj1)

/-- The iterative re-sweep preserves the cycle invariant; the leftover
ready list keeps its properties. -/
theorem cycleLoop_pres (cfg : Config) (slots : List Op) (base : Finset Nat) :
    ∀ (fuel : Nat) (cs : CycleState) (rs : List Nat),
      CycleInv cfg slots base cs → rs.Nodup →
      (∀ j ∈ rs, j ∉ cs.scheduled ∧ PredsDone cfg slots base j) →
      CycleInv cfg slots base (cycleLoop cfg slots fuel cs rs).1 ∧
        (cycleLoop cfg slots fuel cs rs).2.Nodup ∧
        (∀ j ∈ (cycleLoop cfg slots fuel cs rs).2,
          j ∉ (cycleLoop cfg slots fuel cs rs).1.scheduled ∧
            PredsDone cfg slots base j) ∧
        (∀ j ∈ cs.thisCycle, j ∈ (cycleLoop cfg slots fuel cs rs).1.thisCycle) := by
  intro fuel
  induction fuel with
  | zero => intro cs rs h1 h2 h3; exact ⟨h1, h2, h3, fun j hj => hj⟩
  | succ m ih =>
      intro cs rs h1 h2 h3
      unfold cycleLoop
      by_cases hrs : rs.isEmpty
      · rw [if_pos hrs]
        exact ⟨h1, h2, h3, fun j hj => hj⟩
      · rw [if_neg hrs]
        have hfold := foldl_placeOp_pres cfg slots base rs (cs, [], false)
          ⟨h1, List.nodup_nil, by simp⟩
          ⟨h2, fun j hj => ⟨(h3 j hj).1, (h3 j hj).2, by simp⟩⟩
        unfold cyclePass
        obtain ⟨⟨hInv1, hnrN, hnr⟩, htcmono, -⟩ := hfold
        cases hres : rs.foldl (placeOp cfg slots) (cs, [], false) with
        | mk cs1 q =>
            obtain ⟨newReady, prog⟩ := q
            rw [hres] at hInv1 hnrN hnr htcmono
            dsimp only
            by_cases hprog : prog
            · rw [if_pos hprog]
              obtain ⟨ha, hb, hc, hd⟩ := ih cs1 newReady hInv1 hnrN
                (fun j hj => ⟨(hnr j hj).1, (hnr j hj).2⟩)
              exact ⟨ha, hb, hc, fun j hj => hd j (htcmono j hj)⟩
            · rw [if_neg hprog]
              exact ⟨hInv1, hnrN, hnr, htcmono⟩

/-! Readiness-sweep characterization -/

theorem getD_len_le {α : Type} (d : α) :
    ∀ (l : List α) (j : Nat), l.length ≤ j → l.getD j d = d := by
  intro l
  induction l with
  | nil => intro j _; rfl
  | cons x xs ih =>
      intro j hj
      cases j with
      | zero => simp at hj
      | succ m => exact ih m (by simpa using hj)

theorem getD_set_self {α : Type} (d : α) :
    ∀ (l : List α) (k : Nat) (x : α), k < l.length → (l.set k x).getD k d = x := by
  intro l
  induction l with
  | nil => intro k x hk; simp at hk
  | cons y ys ih =>
      intro k x hk
      cases k with
      | zero => rfl
      | succ m => exact ih m x (by simpa using hk)

theorem getD_set_ne {α : Type} (d : α) :
    ∀ (l : List α) (k j : Nat) (x : α), j ≠ k → (l.set k x).getD j d = l.getD j d := by
  intro l
  induction l with
  | nil => intro k j x _; rfl
  | cons y ys ih =>
      intro k j x hjk
      cases k with
      | zero =>
          cases j with
          | zero => exact absurd rfl hjk
          | succ m => rfl
      | succ mk =>
          cases j with
          | zero => rfl
          | succ mj => exact ih mk mj x (fun he => hjk (by rw [he]))

theorem sweepBody_fold (sched : Finset Nat) (i : Nat) :
    ∀ (js : List Nat) (pr : List (Finset Nat)) (rd : List Nat),
      js.Nodup → (∀ j ∈ js, j < pr.length) →
      (js.foldl (sweepBody sched i) (pr, rd)).1.length = pr.length ∧
      (∀ j, j ∈ js → j ∉ sched →
        (js.foldl (sweepBody sched i) (pr, rd)).1.getD j ∅ = (pr.getD j ∅).erase i) ∧
      (∀ j, (j ∉ js ∨ j ∈ sched) →
        (js.foldl (sweepBody sched i) (pr, rd)).1.getD j ∅ = pr.getD j ∅) ∧
      (∀ j ∈ (js.foldl (sweepBody sched i) (pr, rd)).2,
        j ∈ rd ∨ (j ∉ sched ∧ (pr.getD j ∅).erase i = ∅)) ∧
      (rd.Nodup → (js.foldl (sweepBody sched i) (pr, rd)).2.Nodup) ∧
      (∀ j ∈ rd, j ∈ (js.foldl (sweepBody sched i) (pr, rd)).2) := by
  intro js
  induction js with
  | nil =>
      intro pr rd _ _
      exact ⟨rfl, by simp, fun j _ => rfl, fun j hj => Or.inl hj, fun h => h,
        fun j hj => hj⟩
  | cons j0 rest ih =>
      intro pr rd hN hB
      have hj0 : j0 < pr.length := hB j0 (List.mem_cons_self j0 rest)
      have hj0r : j0 ∉ rest := (List.nodup_cons.1 hN).1
      have hrestN : rest.Nodup := (List.nodup_cons.1 hN).2
      rw [List.foldl_cons]
      by_cases hact : j0 ∉ sched ∧ i ∈ pr.getD j0 ∅
      · have hbody : sweepBody sched i (pr, rd) j0 =
            (pr.set j0 ((pr.getD j0 ∅).erase i),
             if (pr.getD j0 ∅).erase i = ∅ ∧ j0 ∉ rd then rd ++ [j0] else rd) := by
          unfold sweepBody
          rw [if_pos hact]
        rw [hbody]
        have hlen1 : (pr.set j0 ((pr.getD j0 ∅).erase i)).length = pr.length := by simp
        obtain ⟨ha, hb, hc, hd, he, hf⟩ := ih (pr.set j0 ((pr.getD j0 ∅).erase i))
          (if (pr.getD j0 ∅).erase i = ∅ ∧ j0 ∉ rd then rd ++ [j0] else rd)
          hrestN (fun j hj => by rw [hlen1]; exact hB j (List.mem_cons_of_mem j0 hj))
        refine ⟨by rw [ha, hlen1], ?_, ?_, ?_, ?_, ?_⟩
        · intro j hj hjs
          rcases List.mem_cons.1 hj with hj1 | hj1
          · subst hj1
            rw [hc j (Or.inl hj0r), getD_set_self _ _ _ _ hj0]
          · rw [hb j hj1 hjs, getD_set_ne]
            intro he2
            subst he2
            exact hj0r hj1
        · intro j hj
          have hjrest : j ∉ rest ∨ j ∈ sched := by
            rcases hj with hj1 | hj1
            · exact Or.inl (fun hx => hj1 (List.mem_cons_of_mem j0 hx))
            · exact Or.inr hj1
          rw [hc j hjrest, getD_set_ne]
          intro he2
          subst he2
          rcases hj with hj1 | hj1
          · exact hj1 (List.mem_cons_self j rest)
          · exact hact.1 hj1
        · intro j hj
          rcases hd j hj with hj1 | hj1
          · by_cases hcnd : (pr.getD j0 ∅).erase i = ∅ ∧ j0 ∉ rd
            · rw [if_pos hcnd] at hj1
              rcases List.mem_append.1 hj1 with hj2 | hj2
              · exact Or.inl hj2
              · rw [List.mem_singleton] at hj2
                subst hj2
                exact Or.inr ⟨hact.1, hcnd.1⟩
            · rw [if_neg hcnd] at hj1
              exact Or.inl hj1
          · obtain ⟨hs, hz⟩ := hj1
            by_cases hjj0 : j = j0
            · subst hjj0
              rw [getD_set_self _ _ _ _ hj0, Finset.erase_idem] at hz
              exact Or.inr ⟨hs, hz⟩
            · rw [getD_set_ne _ _ _ _ _ hjj0] at hz
              exact Or.inr ⟨hs, hz⟩
        · intro hrdN
          apply he
          by_cases hcnd : (pr.getD j0 ∅).erase i = ∅ ∧ j0 ∉ rd
          · rw [if_pos hcnd]
            rw [List.nodup_append]
            refine ⟨hrdN, List.nodup_singleton j0, ?_⟩
            intro a hmem hsing
            rw [List.mem_singleton] at hsing
            subst hsing
            exact hcnd.2 hmem
          · rw [if_neg hcnd]
            exact hrdN
        · intro j hj
          apply hf
          by_cases hcnd : (pr.getD j0 ∅).erase i = ∅ ∧ j0 ∉ rd
          · rw [if_pos hcnd]
            exact List.mem_append.2 (Or.inl hj)
          · rw [if_neg hcnd]
            exact hj
      · have hbody : sweepBody sched i (pr, rd) j0 = (pr, rd) := by
          unfold sweepBody
          rw [if_neg hact]
        rw [hbody]
        obtain ⟨ha, hb, hc, hd, he, hf⟩ := ih pr rd hrestN
          (fun j hj => hB j (List.mem_cons_of_mem j0 hj))
        refine ⟨ha, ?_, ?_, hd, he, hf⟩
        · intro j hj hjs
          rcases List.mem_cons.1 hj with hj1 | hj1
          · subst hj1
            rw [hc j (Or.inl hj0r)]
            have hni : i ∉ pr.getD j ∅ := by
              intro hx
              exact hact ⟨hjs, hx⟩
            rw [Finset.erase_eq_of_not_mem hni]
          · exact hb j hj1 hjs
        · intro j hj
          apply hc
          rcases hj with hj1 | hj1
          · exact Or.inl (fun hx => hj1 (List.mem_cons_of_mem j0 hx))
          · exact Or.inr hj1

theorem readyUpdate_spec (sched : Finset Nat) (n i : Nat)
    (pr : List (Finset Nat)) (rd : List Nat) (hlen : pr.length = n) :
    (readyUpdate sched n i (pr, rd)).1.length = n ∧
    (∀ j, j ∉ sched →
      (readyUpdate sched n i (pr, rd)).1.getD j ∅ = (pr.getD j ∅).erase i) ∧
    (∀ j, j ∈ sched →
      (readyUpdate sched n i (pr, rd)).1.getD j ∅ = pr.getD j ∅) ∧
    (∀ j ∈ (readyUpdate sched n i (pr, rd)).2,
      j ∈ rd ∨ (j ∉ sched ∧ (pr.getD j ∅).erase i = ∅)) ∧
    (rd.Nodup → (readyUpdate sched n i (pr, rd)).2.Nodup) ∧
    (∀ j ∈ rd, j ∈ (readyUpdate sched n i (pr, rd)).2) := by
  obtain ⟨ha, hb, hc, hd, he, hf⟩ := sweepBody_fold sched i (List.range n) pr rd
    (List.nodup_range n) (fun j hj => by rw [hlen]; exact List.mem_range.1 hj)
  unfold readyUpdate
  refine ⟨by rw [ha, hlen], ?_, ?_, hd, he, hf⟩
  · intro j hjs
    by_cases hjn : j < n
    · exact hb j (List.mem_range.2 hjn) hjs
    · rw [hc j (Or.inl (fun hx => hjn (List.mem_range.1 hx)))]
      rw [getD_len_le _ _ _ (by omega : pr.length ≤ j), Finset.erase_empty]
  · intro j hjs
    exact hc j (Or.inr hjs)

theorem getD_append_lt {α : Type} (d : α) :
    ∀ (l1 l2 : List α) (c : Nat), c < l1.length → (l1 ++ l2).getD c d = l1.getD c d := by
  intro l1
  induction l1 with
  | nil => intro l2 c hc; simp at hc
  | cons x xs ih =>
      intro l2 c hc
      cases c with
      | zero => rfl
      | succ m => exact ih l2 m (by simpa using hc)

theorem getD_append_len {α : Type} (d : α) :
    ∀ (l1 : List α) (x : α), (l1 ++ [x]).getD l1.length d = x := by
  intro l1
  induction l1 with
  | nil => intro x; rfl
  | cons y ys ih => intro x; exact ih x

theorem getD_append_at {α : Type} (d : α) (l1 : List α) (x : α) (c : Nat)
    (h : c = l1.length) : (l1 ++ [x]).getD c d = x := by
  subst h
  exact getD_append_len d l1 x

theorem erase_sdiff_toFinset (X : Finset Nat) (a : Nat) (S : Finset Nat) :
    (X.erase a) \ S = X \ insert a S := by
  ext x
  simp only [Finset.mem_sdiff, Finset.mem_erase, Finset.mem_insert]
  tauto

theorem outerSweep (sched : Finset Nat) (n : Nat) :
    ∀ (ts : List Nat) (pr : List (Finset Nat)) (rd : List Nat),
      pr.length = n →
      (ts.foldl (fun acc i => readyUpdate sched n i acc) (pr, rd)).1.length = n ∧
      (∀ j, j ∉ sched →
        (ts.foldl (fun acc i => readyUpdate sched n i acc) (pr, rd)).1.getD j ∅ =
          pr.getD j ∅ \ ts.toFinset) ∧
      (∀ j ∈ (ts.foldl (fun acc i => readyUpdate sched n i acc) (pr, rd)).2,
        j ∈ rd ∨ (j ∉ sched ∧ pr.getD j ∅ \ ts.toFinset = ∅)) ∧
      (rd.Nodup → (ts.foldl (fun acc i => readyUpdate sched n i acc) (pr, rd)).2.Nodup) ∧
      (∀ j ∈ rd, j ∈ (ts.foldl (fun acc i => readyUpdate sched n i acc) (pr, rd)).2) := by
  intro ts
  induction ts with
  | nil =>
      intro pr rd hlen
      refine ⟨hlen, ?_, fun j hj => Or.inl hj, fun h => h, fun j hj => hj⟩
      intro j _
      simp
  | cons i0 rest ih =>
      intro pr rd hlen
      rw [List.foldl_cons]
      obtain ⟨ha, hb, hc, hd, he, hf⟩ := readyUpdate_spec sched n i0 pr rd hlen
      cases hru : readyUpdate sched n i0 (pr, rd) with
      | mk pr1 rd1 =>
          rw [hru] at ha hb hc hd he hf
          obtain ⟨ia, ib, ic, id2, ie⟩ := ih pr1 rd1 ha
          have htf : (i0 :: rest).toFinset = insert i0 rest.toFinset := by simp
          refine ⟨ia, ?_, ?_, ?_, ?_⟩
          · intro j hjs
            rw [ib j hjs, hb j hjs, htf, erase_sdiff_toFinset]
          · intro j hj
            rcases ic j hj with hj1 | ⟨hj2, hj3⟩
            · rcases hd j hj1 with hj4 | ⟨hj5, hj6⟩
              · exact Or.inl hj4
              · refine Or.inr ⟨hj5, ?_⟩
                rw [htf]
                rw [← erase_sdiff_toFinset, hj6]
                exact Finset.empty_sdiff _
            · refine Or.inr ⟨hj2, ?_⟩
              rw [htf, ← erase_sdiff_toFinset, ← hb j hj2]
              exact hj3
          · intro hrdN
            exact id2 (he hrdN)
          · intro j hj
            exact ie j (hf j hj)

theorem predAt_oob (cfg : Config) (slots : List Op) (j : Nat)
    (h : slots.length ≤ j) : predAt cfg slots j = ∅ := by
  have hop : opAt slots j = ("", ⟨"", []⟩) := getD_len_le _ slots j h
  unfold predAt opReads opWrites opEngine opSlot
  rw [hop]
  simp [get_reads, get_writes]

theorem getD_map_range (f : Nat → Finset Nat) :
    ∀ (n j : Nat), ((List.range n).map f).getD j ∅ = if j < n then f j else ∅ := by
  intro n
  induction n with
  | zero => intro j; simp
  | succ m ih =>
      intro j
      rw [List.range_succ, List.map_append]
      by_cases hj : j < m
      · rw [getD_append_lt _ _ _ j (by simpa using hj), ih j, if_pos hj,
          if_pos (by omega)]
      · by_cases hjm : j = m
        · subst hjm
          rw [if_pos (Nat.lt_succ_self j)]
          show ((List.range j).map f ++ [f j]).getD j ∅ = f j
          exact getD_append_at ∅ _ (f j) j (by simp)
        · rw [getD_len_le, if_neg (by omega)]
          simp
          omega

/-- Global scheduler invariant between cycles: the emitted bundles and
the ghost cycle lists agree, hard dependencies sit in strictly earlier
bundles, WAR dependencies in no-later bundles, bundles are internally
hazard-free and within slot limits, and the ready queue / remaining
pred sets are consistent with the scheduled set. -/
structure SchedInv (cfg : Config) (slots : List Op) (st : OuterState) : Prop where
  len_eq : st.instrs.length = st.cycles.length
  predRemLen : st.predRem.length = slots.length
  sched_iff : ∀ i, i ∈ st.scheduled ↔ ∃ c, i ∈ st.cycles.getD c []
  uniq : ∀ i ca cb, i ∈ st.cycles.getD ca [] → i ∈ st.cycles.getD cb [] → ca = cb
  nodupC : ∀ c, (st.cycles.getD c []).Nodup
  hard : ∀ cb i, i ∈ st.cycles.getD cb [] → ∀ j ∈ predAt cfg slots i,
      ∃ ca, ca < cb ∧ j ∈ st.cycles.getD ca []
  war : ∀ cb i, i ∈ st.cycles.getD cb [] → ∀ j ∈ warPredAt cfg slots i,
      ∃ ca, ca ≤ cb ∧ j ∈ st.cycles.getD ca []
  pairHaz : ∀ c, List.Pairwise (HazFree cfg slots) (st.cycles.getD c [])
  bundleCorr : ∀ c e, engineSlots (st.instrs.getD c []) e =
      ((st.cycles.getD c []).filter (fun i => opEngine slots i = e)).map (opSlot slots)
  limitOk : ∀ c e, e ≠ "debug" →
      ((st.cycles.getD c []).filter (fun i => opEngine slots i = e)).length ≤
        limitsGet cfg e
  predRemEq : ∀ j, j ∉ st.scheduled →
      st.predRem.getD j ∅ = predAt cfg slots j \ st.scheduled
  readyNodup : st.ready.Nodup
  readyInv : ∀ j ∈ st.ready, j ∉ st.scheduled ∧ PredsDone cfg slots st.scheduled j

/-- The initial scheduler state satisfies the invariant. -/
theorem schedInv_init (cfg : Config) (slots : List Op) :
    SchedInv cfg slots
      { instrs := [], cycles := [], scheduled := ∅,
        predRem := (List.range slots.length).map (predAt cfg slots),
        ready := (List.range slots.length).filter
          (fun i => predAt cfg slots i = ∅) } := by
  refine ⟨rfl, by simp, ?_, ?_, ?_, ?_, ?_, ?_, ?_, ?_, ?_, ?_, ?_⟩
  · intro i
    simp [List.getD]
  · intro i ca cb hca
    simp [List.getD] at hca
  · intro c
    simp [List.getD]
  · intro cb i hi
    simp [List.getD] at hi
  · intro cb i hi
    simp [List.getD] at hi
  · intro c
    simp [List.getD]
  · intro c e
    simp [List.getD, engineSlots, alist_get]
  · intro c e _
    simp [List.getD]
  · intro j _
    rw [getD_map_range]
    by_cases hj : j < slots.length
    · rw [if_pos hj]
      simp
    · rw [if_neg hj, predAt_oob cfg slots j (by omega)]
      simp
  · exact List.Nodup.filter _ (List.nodup_range slots.length)
  · intro j hj
    rw [List.mem_filter] at hj
    have hp : predAt cfg slots j = ∅ := by
      have := hj.2
      simpa using this
    refine ⟨by simp, ?_⟩
    intro k hk
    rw [hp] at hk
    exact absurd hk (Finset.not_mem_empty k)

theorem mem_getD_lt {α : Type} (l : List (List α)) (c : Nat) (x : α)
    (h : x ∈ l.getD c []) : c < l.length := by
  by_contra hc
  rw [getD_len_le [] l c (by omega)] at h
  exact absurd h (List.not_mem_nil x)

theorem sdiff_toFinset_empty_subset {X : Finset Nat} {ts : List Nat}
    (h : X \ ts.toFinset = ∅) : ∀ x ∈ X, x ∈ ts := by
  intro x hx
  by_contra hxm
  have : x ∈ X \ ts.toFinset := Finset.mem_sdiff.2 ⟨hx, by simpa using hxm⟩
  rw [h] at this
  exact absurd this (Finset.not_mem_empty x)

/-- One outer scheduling cycle preserves the global invariant; the
scheduled set only grows, and already-emitted cycles are unchanged. -/
theorem outerStep_pres (cfg : Config) (slots : List Op) (hs : List Nat)
    (st : OuterState) (hInv : SchedInv cfg slots st) :
    SchedInv cfg slots (outerStep cfg slots hs st) ∧
      (∀ i, i ∈ st.scheduled → i ∈ (outerStep cfg slots hs st).scheduled) ∧
      (∀ c i, i ∈ st.cycles.getD c [] → i ∈ (outerStep cfg slots hs st).cycles.getD c []) := by
  have hcs0 : CycleInv cfg slots st.scheduled
      ⟨[], [], ∅, ∅, st.scheduled, []⟩ := by
    refine ⟨?_, ?_, ?_, ?_, ?_, ?_, ?_, ?_, ?_, ?_, ?_⟩
    · intro i; simp
    · intro i hi; simp at hi
    · exact List.nodup_nil
    · intro i hi; simp at hi
    · intro i hi; simp at hi
    · exact List.Pairwise.nil
    · intro x; simp
    · intro e; simp [engineSlots, alist_get]
    · intro e _; simp [countsGet, alist_get]
    · intro e _; simp [countsGet, alist_get]
    · simp
  have hsN : (sortLE (sortKeyLE slots hs) st.ready).Nodup :=
    sortLE_nodup _ _ hInv.readyNodup
  have hsP : ∀ j ∈ sortLE (sortKeyLE slots hs) st.ready,
      j ∉ st.scheduled ∧ PredsDone cfg slots st.scheduled j :=
    fun j hj => hInv.readyInv j ((sortLE_mem _ _ j).1 hj)
  obtain ⟨hCI, hloN, hloP, -⟩ := cycleLoop_pres cfg slots st.scheduled
    ((sortLE (sortKeyLE slots hs) st.ready).length + 1)
    ⟨[], [], ∅, ∅, st.scheduled, []⟩ (sortLE (sortKeyLE slots hs) st.ready)
    hcs0 hsN hsP
  unfold outerStep
  dsimp only
  cases hcl : cycleLoop cfg slots ((sortLE (sortKeyLE slots hs) st.ready).length + 1)
      ⟨[], [], ∅, ∅, st.scheduled, []⟩ (sortLE (sortKeyLE slots hs) st.ready) with
  | mk cs leftover =>
      rw [hcl] at hCI hloN hloP
      dsimp only at hCI hloN hloP ⊢
      obtain ⟨swLen, swGet, swRd, swNodup, swSub⟩ :=
        outerSweep cs.scheduled slots.length cs.thisCycle st.predRem leftover
          hInv.predRemLen
      cases hsw : cs.thisCycle.foldl
          (fun acc i => readyUpdate cs.scheduled slots.length i acc)
          (st.predRem, leftover) with
      | mk predRem1 ready1 =>
          rw [hsw] at swLen swGet swRd swNodup swSub
          dsimp only
          have hschedMono : ∀ i, i ∈ st.scheduled → i ∈ cs.scheduled :=
            fun i hi => (hCI.schedEq i).2 (Or.inl hi)
          have hPredsMono : ∀ j, PredsDone cfg slots st.scheduled j →
              PredsDone cfg slots cs.scheduled j :=
            fun j hj k hk => hschedMono k (hj k hk)
          by_cases hbe : cs.bundle = []
          · -- empty bundle: nothing was scheduled this cycle
            rw [if_pos hbe, if_pos hbe]
            have htc : cs.thisCycle = [] := hCI.emptyIff.1 hbe
            have hschedEq : cs.scheduled = st.scheduled := by
              apply Finset.ext
              intro i
              rw [hCI.schedEq i, htc]
              simp
            have htcF : cs.thisCycle.toFinset = (∅ : Finset Nat) := by
              rw [htc]; rfl
            refine ⟨⟨hInv.len_eq, swLen, ?_, hInv.uniq, hInv.nodupC, hInv.hard,
              hInv.war, hInv.pairHaz, hInv.bundleCorr, hInv.limitOk, ?_, ?_, ?_⟩,
              ?_, ?_⟩
            · intro i
              rw [hschedEq]
              exact hInv.sched_iff i
            · intro j hj
              rw [swGet j hj, htcF, Finset.sdiff_empty, hschedEq]
              exact hInv.predRemEq j (by rw [← hschedEq]; exact hj)
            · exact swNodup hloN
            · intro j hj
              rcases swRd j hj with hj1 | ⟨hj2, hj3⟩
              · obtain ⟨h1, h2⟩ := hloP j hj1
                exact ⟨h1, hPredsMono j h2⟩
              · refine ⟨hj2, ?_⟩
                rw [htcF, Finset.sdiff_empty] at hj3
                rw [hInv.predRemEq j (by rw [← hschedEq]; exact hj2)] at hj3
                intro k hk
                rw [hschedEq]
                by_contra hks
                have : k ∈ predAt cfg slots j \ st.scheduled :=
                  Finset.mem_sdiff.2 ⟨hk, hks⟩
                rw [hj3] at this
                exact absurd this (Finset.not_mem_empty k)
            · exact hschedMono
            · intro c i hi
              exact hi
          · -- non-empty bundle: append it together with its cycle list
            rw [if_neg hbe, if_neg hbe]
            have hgetlt : ∀ c, c < st.cycles.length →
                (st.cycles ++ [cs.thisCycle]).getD c [] = st.cycles.getD c [] :=
              fun c hc => getD_append_lt [] st.cycles [cs.thisCycle] c hc
            have hgetlen : (st.cycles ++ [cs.thisCycle]).getD st.cycles.length [] =
                cs.thisCycle := getD_append_len [] st.cycles cs.thisCycle
            have hgetgt : ∀ c, st.cycles.length < c →
                (st.cycles ++ [cs.thisCycle]).getD c [] = [] := by
              intro c hc
              exact getD_len_le [] _ c (by simp; omega)
            have hmemlt : ∀ c i, i ∈ st.cycles.getD c [] → c < st.cycles.length :=
              fun c i hi => mem_getD_lt st.cycles c i hi
            have hmemCases : ∀ c i, i ∈ (st.cycles ++ [cs.thisCycle]).getD c [] →
                (c < st.cycles.length ∧ i ∈ st.cycles.getD c []) ∨
                (c = st.cycles.length ∧ i ∈ cs.thisCycle) := by
              intro c i hi
              by_cases hc : c < st.cycles.length
              · rw [hgetlt c hc] at hi
                exact Or.inl ⟨hc, hi⟩
              · by_cases hce : c = st.cycles.length
                · subst hce
                  rw [hgetlen] at hi
                  exact Or.inr ⟨rfl, hi⟩
                · rw [hgetgt c (by omega)] at hi
                  exact absurd hi (List.not_mem_nil i)
            have hnewSched : ∀ i, i ∈ cs.scheduled ↔
                ∃ c, i ∈ (st.cycles ++ [cs.thisCycle]).getD c [] := by
              intro i
              rw [hCI.schedEq i]
              constructor
              · rintro (hi | hi)
                · obtain ⟨c, hc⟩ := (hInv.sched_iff i).1 hi
                  exact ⟨c, by rw [hgetlt c (hmemlt c i hc)]; exact hc⟩
                · exact ⟨st.cycles.length, by rw [hgetlen]; exact hi⟩
              · rintro ⟨c, hc⟩
                rcases hmemCases c i hc with ⟨h1, h2⟩ | ⟨h1, h2⟩
                · exact Or.inl ((hInv.sched_iff i).2 ⟨c, h2⟩)
                · exact Or.inr h2
            refine ⟨⟨?_, swLen, hnewSched, ?_, ?_, ?_, ?_, ?_, ?_, ?_, ?_, ?_, ?_⟩,
              ?_, ?_⟩
            · simp [hInv.len_eq]
            · -- uniq
              intro i ca cb hca hcb
              rcases hmemCases ca i hca with ⟨h1, h2⟩ | ⟨h1, h2⟩ <;>
                rcases hmemCases cb i hcb with ⟨h3, h4⟩ | ⟨h3, h4⟩
              · exact hInv.uniq i ca cb h2 h4
              · exact absurd ((hInv.sched_iff i).2 ⟨ca, h2⟩) (hCI.tcNew i h4)
              · exact absurd ((hInv.sched_iff i).2 ⟨cb, h4⟩) (hCI.tcNew i h2)
              · rw [h1, h3]
            · -- nodup
              intro c
              by_cases hc : c < st.cycles.length
              · rw [hgetlt c hc]
                exact hInv.nodupC c
              · by_cases hce : c = st.cycles.length
                · subst hce
                  rw [hgetlen]
                  exact hCI.tcNodup
                · rw [hgetgt c (by omega)]
                  exact List.nodup_nil
            · -- hard
              intro cb i hi j hj
              rcases hmemCases cb i hi with ⟨h1, h2⟩ | ⟨h1, h2⟩
              · obtain ⟨ca, hca1, hca2⟩ := hInv.hard cb i h2 j hj
                exact ⟨ca, hca1, by
                  rw [hgetlt ca (hmemlt ca j hca2)]
                  exact hca2⟩
              · have hjs : j ∈ st.scheduled := hCI.tcHard i h2 j hj
                obtain ⟨ca, hca⟩ := (hInv.sched_iff j).1 hjs
                have hlt : ca < st.cycles.length := hmemlt ca j hca
                exact ⟨ca, by omega, by rw [hgetlt ca hlt]; exact hca⟩
            · -- war
              intro cb i hi j hj
              rcases hmemCases cb i hi with ⟨h1, h2⟩ | ⟨h1, h2⟩
              · obtain ⟨ca, hca1, hca2⟩ := hInv.war cb i h2 j hj
                exact ⟨ca, hca1, by
                  rw [hgetlt ca (hmemlt ca j hca2)]
                  exact hca2⟩
              · have hjs : j ∈ cs.scheduled := hCI.tcWar i h2 j hj
                rcases (hCI.schedEq j).1 hjs with hj1 | hj1
                · obtain ⟨ca, hca⟩ := (hInv.sched_iff j).1 hj1
                  have hlt : ca < st.cycles.length := hmemlt ca j hca
                  exact ⟨ca, by omega, by rw [hgetlt ca hlt]; exact hca⟩
                · exact ⟨st.cycles.length, by omega, by rw [hgetlen]; exact hj1⟩
            · -- pairwise hazard freedom
              intro c
              by_cases hc : c < st.cycles.length
              · rw [hgetlt c hc]
                exact hInv.pairHaz c
              · by_cases hce : c = st.cycles.length
                · subst hce
                  rw [hgetlen]
                  exact hCI.tcPair
                · rw [hgetgt c (by omega)]
                  exact List.Pairwise.nil
            · -- bundle correspondence
              intro c e
              by_cases hc : c < st.cycles.length
              · rw [hgetlt c hc, getD_append_lt [] st.instrs [cs.bundle] c
                  (by rw [hInv.len_eq]; exact hc)]
                exact hInv.bundleCorr c e
              · by_cases hce : c = st.cycles.length
                · subst hce
                  rw [hgetlen, getD_append_at [] st.instrs cs.bundle _ hInv.len_eq.symm]
                  exact hCI.bCorr e
                · rw [hgetgt c (by omega), getD_len_le [] _ c
                    (by simp; rw [hInv.len_eq]; omega)]
                  simp [engineSlots, alist_get]
            · -- slot limits
              intro c e he
              by_cases hc : c < st.cycles.length
              · rw [hgetlt c hc]
                exact hInv.limitOk c e he
              · by_cases hce : c = st.cycles.length
                · subst hce
                  rw [hgetlen, ← hCI.cntEq e he]
                  exact hCI.cntLe e he
                · rw [hgetgt c (by omega)]
                  simp
            · -- predRem characterization
              intro j hj
              have hjst : j ∉ st.scheduled := fun hx => hj (hschedMono j hx)
              rw [swGet j hj, hInv.predRemEq j hjst]
              apply Finset.ext
              intro x
              simp only [Finset.mem_sdiff, List.mem_toFinset]
              constructor
              · rintro ⟨⟨hx1, hx2⟩, hx3⟩
                refine ⟨hx1, ?_⟩
                intro hx4
                rcases (hCI.schedEq x).1 hx4 with hx5 | hx5
                · exact hx2 hx5
                · exact hx3 hx5
              · rintro ⟨hx1, hx2⟩
                have hx3 : x ∉ st.scheduled := fun hx => hx2 (hschedMono x hx)
                have hx4 : x ∉ cs.thisCycle := fun hx =>
                  hx2 (mem_thisCycle_scheduled hCI hx)
                exact ⟨⟨hx1, hx3⟩, hx4⟩
            · -- ready nodup
              exact swNodup hloN
            · -- ready invariant
              intro j hj
              rcases swRd j hj with hj1 | ⟨hj2, hj3⟩
              · obtain ⟨h1, h2⟩ := hloP j hj1
                exact ⟨h1, hPredsMono j h2⟩
              · refine ⟨hj2, ?_⟩
                have hjst : j ∉ st.scheduled := fun hx => hj2 (hschedMono j hx)
                rw [hInv.predRemEq j hjst] at hj3
                intro k hk
                by_cases hks : k ∈ st.scheduled
                · exact hschedMono k hks
                · have : k ∈ predAt cfg slots j \ st.scheduled :=
                    Finset.mem_sdiff.2 ⟨hk, hks⟩
                  have hkt := sdiff_toFinset_empty_subset hj3 k this
                  exact mem_thisCycle_scheduled hCI hkt
            · exact hschedMono
            · intro c i hi
              rw [hgetlt c (hmemlt c i hi)]
              exact hi

theorem schedLoop_pres (cfg : Config) (slots : List Op) (hs : List Nat) :
    ∀ (fuel : Nat) (st : OuterState), SchedInv cfg slots st →
      SchedInv cfg slots (schedLoop cfg slots hs fuel st) ∧
        (∀ i, i ∈ st.scheduled → i ∈ (schedLoop cfg slots hs fuel st).scheduled) ∧
        (∀ c i, i ∈ st.cycles.getD c [] →
          i ∈ (schedLoop cfg slots hs fuel st).cycles.getD c []) := by
  intro fuel
  induction fuel with
  | zero => intro st h; exact ⟨h, fun i hi => hi, fun c i hi => hi⟩
  | succ m ih =>
      intro st h
      unfold schedLoop
      by_cases hr : st.ready.isEmpty
      · rw [if_pos hr]
        exact ⟨h, fun i hi => hi, fun c i hi => hi⟩
      · rw [if_neg hr]
        obtain ⟨h1, h2, h3⟩ := outerStep_pres cfg slots hs st h
        obtain ⟨g1, g2, g3⟩ := ih (outerStep cfg slots hs st) h1
        exact ⟨g1, fun i hi => g2 i (h2 i hi),
          fun c i hi => g3 c i (h3 c i hi)⟩

/-- The final scheduler state of `VLIWScheduler.build` (packing mode)
satisfies the global invariant. -/
theorem buildState_inv (cfg : Config) (slots : List Op) :
    SchedInv cfg slots (buildState cfg slots) := by
  unfold buildState
  exact (schedLoop_pres cfg slots (heights cfg slots) (slots.length + 1) _
    (schedInv_init cfg slots)).1

theorem buildPacked_fst (cfg : Config) (slots : List Op) :
    (buildPacked cfg slots).1 = (buildState cfg slots).instrs := rfl

theorem buildPacked_snd (cfg : Config) (slots : List Op) :
    (buildPacked cfg slots).2 = (buildState cfg slots).cycles := rfl

/-- The slot of an op scheduled in ghost cycle `c` appears in the
emitted bundle with the same index, under its engine. -/
theorem mem_cycle_slot_in_bundle (cfg : Config) (slots : List Op) (c i : Nat)
    (hi : i ∈ (buildState cfg slots).cycles.getD c []) :
    opSlot slots i ∈
      engineSlots ((buildState cfg slots).instrs.getD c []) (opEngine slots i) := by
  rw [(buildState_inv cfg slots).bundleCorr c (opEngine slots i)]
  apply List.mem_map_of_mem
  rw [List.mem_filter]
  exact ⟨hi, by simp⟩

/-- Chain argument: a writer of `x` is ordered strictly before any
later reader or writer of `x`, through the `last_write` chain of
RAW/WAW edges. -/
theorem hard_chain (cfg : Config) (slots : List Op) :
    ∀ i j x ca cb, j < i → x ∈ opWrites cfg slots j →
      (x ∈ opReads cfg slots i ∨ x ∈ opWrites cfg slots i) →
      j ∈ (buildState cfg slots).cycles.getD ca [] →
      i ∈ (buildState cfg slots).cycles.getD cb [] → ca < cb := by
  intro i
  induction i using Nat.strong_induction_on with
  | _ i ih =>
      intro j x ca cb hji hwj hxi hjc hic
      have hdi : opEngine slots i ≠ "debug" := by
        rcases hxi with hx | hx
        · exact engine_ne_debug_of_mem_reads cfg slots i x hx
        · exact engine_ne_debug_of_mem_writes cfg slots i x hx
      obtain ⟨k, hk1, hk2, hk3, hk4⟩ := lastWriteUpto_exists cfg slots x i j hji hwj
      have hkpred : k ∈ predAt cfg slots i :=
        mem_predAt cfg slots i k x hdi
          (Finset.mem_union.2 (by rcases hxi with hx | hx; exact Or.inl hx; exact Or.inr hx))
          hk1
      obtain ⟨ca2, hca2lt, hca2mem⟩ :=
        (buildState_inv cfg slots).hard cb i hic k hkpred
      by_cases hkj : k = j
      · subst hkj
        have : ca = ca2 := (buildState_inv cfg slots).uniq k ca ca2 hjc hca2mem
        omega
      · have hjk : j < k := lt_of_le_of_ne hk2 (fun he => hkj he.symm)
        have : ca < ca2 := ih k hk3 j x ca ca2 hjk hwj (Or.inr hk4) hjc hca2mem
        omega

/-- C1: if op `A` writes scratch address `x` (per `get_writes`) and a
later op `B` reads or writes `x`, then `A`'s bundle lies strictly
before `B`'s in the packed schedule, and the two ops' slots really sit
in those bundles. -/
theorem claim_C1_cross_bundle_ordering (cfg : Config) (slots : List Op)
    (j i : Nat) (x : Int) (ca cb : Nat)
    (hdj : opEngine slots j ≠ "debug") (hdi : opEngine slots i ≠ "debug")
    (hji : j < i) (hw : x ∈ opWrites cfg slots j)
    (hrw : x ∈ opReads cfg slots i ∨ x ∈ opWrites cfg slots i)
    (hjc : j ∈ (buildPacked cfg slots).2.getD ca [])
    (hic : i ∈ (buildPacked cfg slots).2.getD cb []) :
    ca < cb ∧
      opSlot slots j ∈
        engineSlots ((buildPacked cfg slots).1.getD ca []) (opEngine slots j) ∧
      opSlot slots i ∈
        engineSlots ((buildPacked cfg slots).1.getD cb []) (opEngine slots i) := by
  rw [buildPacked_snd] at hjc hic
  rw [buildPacked_fst]
  exact ⟨hard_chain cfg slots i j x ca cb hji hw hrw hjc hic,
    mem_cycle_slot_in_bundle cfg slots ca j hjc,
    mem_cycle_slot_in_bundle cfg slots cb i hic⟩

/-- C2: in every emitted bundle, each non-debug engine's slot list is
within the `SLOT_LIMITS` bound (absent engines default to 1, matching
`SLOT_LIMITS.get(engine, 1)`). -/
theorem claim_C2_slot_limits (cfg : Config) (slots : List Op) (c : Nat)
    (e : String) (he : e ≠ "debug") :
    (engineSlots ((buildPacked cfg slots).1.getD c []) e).length ≤ limitsGet cfg e := by
  rw [buildPacked_fst, (buildState_inv cfg slots).bundleCorr c e, List.length_map]
  exact (buildState_inv cfg slots).limitOk c e he

/-- C3 (amended): within every bundle, no two slots write the same
scratch address, and no slot reads an address written by an
earlier-placed slot of the same bundle; the bundles' per-engine slot
lists are exactly the slots of the ghost cycle in placement order. -/
theorem claim_C3_intra_bundle_amended (cfg : Config) (slots : List Op) (c : Nat) :
    List.Pairwise (HazFree cfg slots) ((buildPacked cfg slots).2.getD c []) ∧
      ∀ e, engineSlots ((buildPacked cfg slots).1.getD c []) e =
        (((buildPacked cfg slots).2.getD c []).filter
          (fun i => opEngine slots i = e)).map (opSlot slots) := by
  rw [buildPacked_fst, buildPacked_snd]
  exact ⟨(buildState_inv cfg slots).pairHaz c,
    fun e => (buildState_inv cfg slots).bundleCorr c e⟩

/-- C4 (general half): a WAR-dependent op (its write set meets an
earlier op's read set) is never placed in an earlier bundle than the
reader. -/
theorem war_no_earlier (cfg : Config) (slots : List Op)
    (j i : Nat) (x : Int) (ca cb : Nat)
    (hji : j < i) (hr : x ∈ opReads cfg slots j) (hw : x ∈ opWrites cfg slots i)
    (hjc : j ∈ (buildState cfg slots).cycles.getD ca [])
    (hic : i ∈ (buildState cfg slots).cycles.getD cb []) : ca ≤ cb := by
  have hdi : opEngine slots i ≠ "debug" :=
    engine_ne_debug_of_mem_writes cfg slots i x hw
  have hwar : j ∈ warPredAt cfg slots i :=
    mem_warPredAt cfg slots i j x hdi hji hw hr
  obtain ⟨ca2, hca2, hmem⟩ := (buildState_inv cfg slots).war cb i hic j hwar
  have : ca = ca2 := (buildState_inv cfg slots).uniq j ca ca2 hjc hmem
  omega


/-- Reference slot-limit table used by the concrete examples (a
stand-in for the environment's `SLOT_LIMITS`). -/
def cfgW : Config :=
  ⟨8, [("alu", 2), ("load", 2), ("valu", 4), ("store", 1), ("flow", 1)]⟩

/-- RAW example stream `[alu 0←1+1, alu 2←0+0]`: the second op reads
the first op's destination. -/
def rawOps : List Op :=
  [("alu", ⟨"+", [.num 0, .num 1, .num 1]⟩),
   ("alu", ⟨"+", [.num 2, .num 0, .num 0]⟩)]

/-- WAR example stream `[alu 0←1+1, alu 1←2+2]` (`X←Y, Y←Z` with
`X, Y, Z = 0, 1, 2`): the second op overwrites the first op's source. -/
def warOps : List Op :=
  [("alu", ⟨"+", [.num 0, .num 1, .num 1]⟩),
   ("alu", ⟨"+", [.num 1, .num 2, .num 2]⟩)]

/-- Cycle state after the fill pass has placed op 0 of `warOps`. -/
def warCS1 : CycleState :=
  ⟨[("alu", [Slot.mk "+" [.num 0, .num 1, .num 1]])], [("alu", 1)],
   {0}, {1}, {0}, [0]⟩

/-- Cycle state after the fill pass has placed both ops of `warOps`. -/
def warCS2 : CycleState :=
  ⟨[("alu", [Slot.mk "+" [.num 0, .num 1, .num 1], Slot.mk "+" [.num 1, .num 2, .num 2]])],
   [("alu", 2)], {0, 1}, {1, 2}, insert 1 {0}, [0, 1]⟩

/-- Final scheduler state for `warOps`: one bundle holding both slots. -/
def warST1 : OuterState :=
  ⟨[[("alu", [Slot.mk "+" [.num 0, .num 1, .num 1], Slot.mk "+" [.num 1, .num 2, .num 2]])]],
   [[0, 1]], insert 1 {0}, [∅, ∅], []⟩

/-- Symbolic evaluation of the packing scheduler on the WAR pair: for
any slot-limit table granting `alu` at least two slots, both ops land
in a single bundle. -/
theorem buildPacked_warOps (cfg : Config) (h2 : 2 ≤ limitsGet cfg "alu") :
    buildPacked cfg warOps =
      ([[("alu", [Slot.mk "+" [.num 0, .num 1, .num 1],
                  Slot.mk "+" [.num 1, .num 2, .num 2]])]], [[0, 1]]) := by
  have he0 : opEngine warOps 0 = "alu" := rfl
  have he1 : opEngine warOps 1 = "alu" := rfl
  have hc0 : countsGet ([] : List (String × Nat)) "alu" = 0 := rfl
  have hn0 : ¬ (limitsGet cfg "alu" ≤ 0) := by omega
  have hn1 : ¬ (limitsGet cfg "alu" ≤ 1) := by omega
  have hplace0 : placeOp cfg warOps (⟨[], [], ∅, ∅, ∅, []⟩, ([] : List Nat), false) 0 =
      (warCS1, [], true) := by
    unfold placeOp
    dsimp only
    rw [he0]
    rw [if_neg (of_decide_eq_false rfl : ¬ ("alu" : String) = "debug")]
    rw [if_neg (of_decide_eq_false rfl : ¬ ∃ p ∈ warPredAt cfg warOps 0,
      p ∉ (∅ : Finset Nat) ∧ p ∉ ([] : List Nat))]
    rw [hc0, if_neg hn0]
    rw [if_neg (of_decide_eq_false rfl :
      ¬ ((opReads cfg warOps 0 ∩ (∅ : Finset Int)).Nonempty))]
    rw [if_neg (of_decide_eq_false rfl :
      ¬ ((opWrites cfg warOps 0 ∩ (∅ : Finset Int)).Nonempty))]
    rfl
  have hplace1 : placeOp cfg warOps (warCS1, ([] : List Nat), true) 1 =
      (warCS2, [], true) := by
    unfold placeOp
    dsimp only
    rw [he1]
    rw [if_neg (of_decide_eq_false rfl : ¬ ("alu" : String) = "debug")]
    rw [if_neg (of_decide_eq_false rfl : ¬ ∃ p ∈ warPredAt cfg warOps 1,
      p ∉ warCS1.scheduled ∧ p ∉ warCS1.thisCycle)]
    rw [show countsGet warCS1.counts "alu" = 1 from rfl, if_neg hn1]
    rw [if_neg (of_decide_eq_false rfl :
      ¬ ((opReads cfg warOps 1 ∩ warCS1.bundleWrites).Nonempty))]
    rw [if_neg (of_decide_eq_false rfl :
      ¬ ((opWrites cfg warOps 1 ∩ warCS1.bundleWrites).Nonempty))]
    rfl
  have hpass : cyclePass cfg warOps ⟨[], [], ∅, ∅, ∅, []⟩ [0, 1] = (warCS2, [], true) := by
    unfold cyclePass
    rw [List.foldl_cons, hplace0, List.foldl_cons, hplace1, List.foldl_nil]
  have hcl : cycleLoop cfg warOps (([0, 1] : List Nat).length + 1)
      ⟨[], [], ∅, ∅, ∅, []⟩ [0, 1] = (warCS2, []) := by
    show cycleLoop cfg warOps 3 ⟨[], [], ∅, ∅, ∅, []⟩ [0, 1] = (warCS2, [])
    have h3 : cycleLoop cfg warOps 3 ⟨[], [], ∅, ∅, ∅, []⟩ [0, 1] =
        (match cyclePass cfg warOps ⟨[], [], ∅, ∅, ∅, []⟩ [0, 1] with
         | (cs1, newReady, prog) =>
            if prog then cycleLoop cfg warOps 2 cs1 newReady else (cs1, newReady)) := rfl
    rw [h3, hpass]
    rfl
  have hsort : sortLE (sortKeyLE warOps (heights cfg warOps)) [0, 1] = [0, 1] := by
    have hh : heights cfg warOps =
      [get_latency_weight cfg "alu", get_latency_weight cfg "alu"] := rfl
    simp [sortLE, insertLE, sortKeyLE, hh, he0, he1, engine_priority, lt_self_iff_false]
  have hos : outerStep cfg warOps (heights cfg warOps) ⟨[], [], ∅, [∅, ∅], [0, 1]⟩ =
      warST1 := by
    unfold outerStep
    dsimp only
    rw [hsort, hcl]
    rfl
  have h0 : buildState cfg warOps =
      schedLoop cfg warOps (heights cfg warOps) 3 ⟨[], [], ∅, [∅, ∅], [0, 1]⟩ := rfl
  have h1 : schedLoop cfg warOps (heights cfg warOps) 3 ⟨[], [], ∅, [∅, ∅], [0, 1]⟩ =
      schedLoop cfg warOps (heights cfg warOps) 2
        (outerStep cfg warOps (heights cfg warOps) ⟨[], [], ∅, [∅, ∅], [0, 1]⟩) := rfl
  have h2' : schedLoop cfg warOps (heights cfg warOps) 2 warST1 = warST1 := rfl
  show ((buildState cfg warOps).instrs, (buildState cfg warOps).cycles) = _
  rw [h0, h1, hos, h2']
  rfl

/-- C4: for the WAR pair `[alu X←Y, alu Y←Z]` over distinct scratch
addresses, any configuration with `alu` limit ≥ 2 packs both ops into
one single bundle; and in general an op whose write set meets an
earlier op's read set (WAR) is never scheduled in an earlier bundle
than that reader. -/
theorem claim_C4_war_same_bundle (cfg : Config) (h2 : 2 ≤ limitsGet cfg "alu") :
    buildPacked cfg warOps =
      ([[("alu", [Slot.mk "+" [.num 0, .num 1, .num 1],
                  Slot.mk "+" [.num 1, .num 2, .num 2]])]], [[0, 1]]) ∧
    ∀ (slots : List Op) (j i : Nat) (x : Int) (ca cb : Nat),
      j < i → x ∈ opReads cfg slots j → x ∈ opWrites cfg slots i →
      j ∈ (buildPacked cfg slots).2.getD ca [] →
      i ∈ (buildPacked cfg slots).2.getD cb [] → ca ≤ cb := by
  refine ⟨buildPacked_warOps cfg h2, ?_⟩
  intro slots j i x ca cb hji hr hw hjc hic
  rw [buildPacked_snd] at hjc hic
  exact war_no_earlier cfg slots j i x ca cb hji hr hw hjc hic

theorem claim_C4_war_same_bundle_witness :
    2 ≤ limitsGet cfgW "alu" ∧
      buildPacked cfgW warOps =
        ([[("alu", [Slot.mk "+" [.num 0, .num 1, .num 1],
                    Slot.mk "+" [.num 1, .num 2, .num 2]])]], [[0, 1]]) :=
  ⟨by decide, (claim_C4_war_same_bundle cfgW (by decide)).1⟩

theorem claim_C1_cross_bundle_ordering_witness :
    opEngine rawOps 0 ≠ "debug" ∧ (0 : Int) ∈ opWrites cfgW rawOps 0 ∧
      (0 : Int) ∈ opReads cfgW rawOps 1 ∧
      ((0 : Nat) < 1 ∧
        opSlot rawOps 0 ∈
          engineSlots ((buildPacked cfgW rawOps).1.getD 0 []) (opEngine rawOps 0) ∧
        opSlot rawOps 1 ∈
          engineSlots ((buildPacked cfgW rawOps).1.getD 1 []) (opEngine rawOps 1)) :=
  ⟨by decide, by decide, by decide,
    claim_C1_cross_bundle_ordering cfgW rawOps 0 1 0 0 1 (by decide) (by decide)
      (by decide) (by decide) (Or.inl (by decide)) (by decide) (by decide)⟩

theorem claim_C2_slot_limits_witness :
    ("alu" : String) ≠ "debug" ∧
      (engineSlots ((buildPacked cfgW rawOps).1.getD 0 []) "alu").length ≤
        limitsGet cfgW "alu" :=
  ⟨by decide, claim_C2_slot_limits cfgW rawOps 0 "alu" (by decide)⟩

/-- Counterexample to C3 as stated: on the WAR pair both ops land in
bundle 0, yet op 1 writes address 1 which op 0 (same bundle) reads —
a same-bundle read of a same-bundle written address. -/
theorem claim_C3_intra_bundle_counterexample :
    (buildPacked cfgW warOps).2.getD 0 [] = [0, 1] ∧
      (1 : Int) ∈ opWrites cfgW warOps 1 ∧ (1 : Int) ∈ opReads cfgW warOps 0 := by
  decide

/-- C5 (amended): an unsupported engine/opcode combination does not
raise; `get_writes` and `get_reads` silently fall through to the empty
set (`alu` always writes; `valu` opcodes always map to vector ranges,
so only the remaining engines can fall through). -/
theorem claim_C5_unknown_opcode (vlen : Nat) (e : String) (slot : Slot)
    (ha : e ≠ "alu") (hv : e ≠ "valu")
    (hl : e = "load" → slot.opcode ≠ "const" ∧ slot.opcode ≠ "load" ∧
      slot.opcode ≠ "vload" ∧ slot.opcode ≠ "load_offset")
    (hs : e = "store" → slot.opcode ≠ "store" ∧ slot.opcode ≠ "vstore")
    (hf : e = "flow" → slot.opcode ≠ "select" ∧ slot.opcode ≠ "vselect" ∧
      slot.opcode ≠ "add_imm" ∧ slot.opcode ≠ "cond_jump" ∧
      slot.opcode ≠ "cond_jump_rel") :
    get_writes vlen e slot = ∅ ∧ get_reads vlen e slot = ∅ := by
  unfold get_writes get_reads
  by_cases hd : e = "debug"
  · simp [hd]
  · by_cases hlo : e = "load"
    · obtain ⟨h1, h2, h3, h4⟩ := hl hlo
      simp [hd, ha, hv, hlo, h1, h2, h3, h4]
    · by_cases hst : e = "store"
      · obtain ⟨h1, h2⟩ := hs hst
        simp [hd, ha, hv, hlo, hst, h1, h2]
      · by_cases hfl : e = "flow"
        · obtain ⟨h1, h2, h3, h4, h5⟩ := hf hfl
          simp [hd, ha, hv, hlo, hst, hfl, h1, h2, h3, h4, h5]
        · simp [hd, ha, hv, hlo, hst, hfl]

theorem claim_C5_unknown_opcode_witness :
    ("load" : String) ≠ "alu" ∧
      (get_writes 8 "load" ⟨"frobnicate", [.num 3, .num 4]⟩ = ∅ ∧
        get_reads 8 "load" ⟨"frobnicate", [.num 3, .num 4]⟩ = ∅) :=
  ⟨by decide,
    claim_C5_unknown_opcode 8 "load" ⟨"frobnicate", [.num 3, .num 4]⟩
      (by decide) (by decide) (by decide) (by decide) (by decide)⟩

/-- Counterexample to C5 as stated: a `load`-engine slot with the
unknown opcode `frobnicate` yields empty read and write sets and the
scheduler packs it without any error. -/
theorem claim_C5_unknown_opcode_counterexample :
    get_writes 8 "load" ⟨"frobnicate", [.num 5, .num 6]⟩ = ∅ ∧
      get_reads 8 "load" ⟨"frobnicate", [.num 5, .num 6]⟩ = ∅ ∧
      buildPacked cfgW [("load", ⟨"frobnicate", [.num 5, .num 6]⟩)] =
        ([[("load", [⟨"frobnicate", [.num 5, .num 6]⟩])]], [[0]]) := by
  decide

/-- `placeOp` only ever appends to the ghost `thisCycle` list. -/
theorem placeOp_thisCycle_mono (cfg : Config) (slots : List Op)
    (acc : CycleState × List Nat × Bool) (k : Nat) :
    ∃ t, (placeOp cfg slots acc k).1.thisCycle = acc.1.thisCycle ++ t := by
  obtain ⟨cs, nr, p⟩ := acc
  unfold placeOp
  dsimp only
  split_ifs
  · exact ⟨[k], rfl⟩
  · exact ⟨[], (List.append_nil _).symm⟩
  · exact ⟨[], (List.append_nil _).symm⟩
  · exact ⟨[], (List.append_nil _).symm⟩
  · exact ⟨[], (List.append_nil _).symm⟩
  · exact ⟨[k], rfl⟩

/-- A debug op is placed unconditionally by `placeOp`: no WAR wait, no
limit check, no hazard check. -/
theorem placeOp_debug_appends (cfg : Config) (slots : List Op)
    (acc : CycleState × List Nat × Bool) (k : Nat) (hk : opEngine slots k = "debug") :
    (placeOp cfg slots acc k).1.thisCycle = acc.1.thisCycle ++ [k] := by
  obtain ⟨cs, nr, p⟩ := acc
  unfold placeOp
  dsimp only
  rw [if_pos hk]

theorem foldl_placeOp_thisCycle_mono (cfg : Config) (slots : List Op) :
    ∀ (l : List Nat) (acc : CycleState × List Nat × Bool),
      ∃ t, (l.foldl (placeOp cfg slots) acc).1.thisCycle = acc.1.thisCycle ++ t := by
  intro l
  induction l with
  | nil => intro acc; exact ⟨[], (List.append_nil _).symm⟩
  | cons a l ih =>
      intro acc
      rw [List.foldl_cons]
      obtain ⟨t1, ht1⟩ := ih (placeOp cfg slots acc a)
      obtain ⟨t0, ht0⟩ := placeOp_thisCycle_mono cfg slots acc a
      exact ⟨t0 ++ t1, by rw [ht1, ht0, List.append_assoc]⟩

theorem foldl_placeOp_debug_mem (cfg : Config) (slots : List Op) (k : Nat)
    (hk : opEngine slots k = "debug") :
    ∀ (l : List Nat) (acc : CycleState × List Nat × Bool), k ∈ l →
      k ∈ (l.foldl (placeOp cfg slots) acc).1.thisCycle := by
  intro l
  induction l with
  | nil => intro acc h; simp at h
  | cons a l ih =>
      intro acc hmem
      rw [List.foldl_cons]
      rcases List.mem_cons.1 hmem with rfl | hl
      · obtain ⟨t, ht⟩ := foldl_placeOp_thisCycle_mono cfg slots l (placeOp cfg slots acc k)
        rw [ht, placeOp_debug_appends cfg slots acc k hk]
        simp
      · exact ih _ hl

/-- `placeOp` preserves "empty bundle means nothing placed". -/
theorem placeOp_bundle_empty (cfg : Config) (slots : List Op)
    (acc : CycleState × List Nat × Bool) (k : Nat)
    (h : acc.1.bundle = [] → acc.1.thisCycle = []) :
    (placeOp cfg slots acc k).1.bundle = [] →
      (placeOp cfg slots acc k).1.thisCycle = [] := by
  obtain ⟨cs, nr, p⟩ := acc
  unfold placeOp
  dsimp only
  split_ifs
  · intro hb; exact absurd hb (bundleAdd_ne_nil _ _ _)
  · exact h
  · exact h
  · exact h
  · exact h
  · intro hb; exact absurd hb (bundleAdd_ne_nil _ _ _)

theorem foldl_placeOp_bundle_empty (cfg : Config) (slots : List Op) :
    ∀ (l : List Nat) (acc : CycleState × List Nat × Bool),
      (acc.1.bundle = [] → acc.1.thisCycle = []) →
      ((l.foldl (placeOp cfg slots) acc).1.bundle = [] →
        (l.foldl (placeOp cfg slots) acc).1.thisCycle = []) := by
  intro l
  induction l with
  | nil => intro acc h; exact h
  | cons a l ih =>
      intro acc h
      rw [List.foldl_cons]
      exact ih _ (placeOp_bundle_empty cfg slots acc a h)

theorem cycleLoop_thisCycle_mono (cfg : Config) (slots : List Op) :
    ∀ (fuel : Nat) (cs : CycleState) (rs : List Nat),
      ∃ t, (cycleLoop cfg slots fuel cs rs).1.thisCycle = cs.thisCycle ++ t := by
  intro fuel
  induction fuel with
  | zero => intro cs rs; exact ⟨[], (List.append_nil _).symm⟩
  | succ fuel ih =>
      intro cs rs
      unfold cycleLoop
      by_cases he : rs.isEmpty = true
      · rw [if_pos he]; exact ⟨[], (List.append_nil _).symm⟩
      · rw [if_neg he]
        have hmono := foldl_placeOp_thisCycle_mono cfg slots rs (cs, [], false)
        cases hcp : cyclePass cfg slots cs rs with
        | mk cs1 rest =>
            obtain ⟨nr, prog⟩ := rest
            unfold cyclePass at hcp
            rw [hcp] at hmono
            dsimp only at hmono ⊢
            cases prog with
            | false =>
                rw [if_neg Bool.false_ne_true]
                exact hmono
            | true =>
                rw [if_pos rfl]
                obtain ⟨t1, ht1⟩ := ih cs1 nr
                obtain ⟨t0, ht0⟩ := hmono
                exact ⟨t0 ++ t1, by rw [ht1, ht0, List.append_assoc]⟩

theorem cycleLoop_bundle_empty (cfg : Config) (slots : List Op) :
    ∀ (fuel : Nat) (cs : CycleState) (rs : List Nat),
      (cs.bundle = [] → cs.thisCycle = []) →
      ((cycleLoop cfg slots fuel cs rs).1.bundle = [] →
        (cycleLoop cfg slots fuel cs rs).1.thisCycle = []) := by
  intro fuel
  induction fuel with
  | zero => intro cs rs h; exact h
  | succ fuel ih =>
      intro cs rs h
      unfold cycleLoop
      by_cases he : rs.isEmpty = true
      · rw [if_pos he]; exact h
      · rw [if_neg he]
        have hinv := foldl_placeOp_bundle_empty cfg slots rs (cs, [], false) h
        cases hcp : cyclePass cfg slots cs rs with
        | mk cs1 rest =>
            obtain ⟨nr, prog⟩ := rest
            unfold cyclePass at hcp
            rw [hcp] at hinv
            dsimp only at hinv ⊢
            cases prog with
            | false =>
                rw [if_neg Bool.false_ne_true]
                exact hinv
            | true =>
                rw [if_pos rfl]
                exact ih cs1 nr hinv

theorem cycleLoop_debug_mem (cfg : Config) (slots : List Op) (fuel : Nat)
    (cs : CycleState) (rs : List Nat) (i : Nat)
    (hd : opEngine slots i = "debug") (hi : i ∈ rs) :
    i ∈ (cycleLoop cfg slots (fuel + 1) cs rs).1.thisCycle := by
  have he : rs.isEmpty = false := by
    cases rs with
    | nil => simp at hi
    | cons a l => rfl
  unfold cycleLoop
  rw [if_neg (by rw [he]; exact Bool.false_ne_true)]
  cases hcp : cyclePass cfg slots cs rs with
  | mk cs1 rest =>
      obtain ⟨nr, prog⟩ := rest
      have hmem : i ∈ cs1.thisCycle := by
        have hall := foldl_placeOp_debug_mem cfg slots i hd rs (cs, [], false) hi
        unfold cyclePass at hcp
        rw [hcp] at hall
        exact hall
      dsimp only
      cases prog with
      | false =>
          rw [if_neg Bool.false_ne_true]
          exact hmem
      | true =>
          rw [if_pos rfl]
          obtain ⟨t, ht⟩ := cycleLoop_thisCycle_mono cfg slots fuel cs1 nr
          rw [ht]
          exact List.mem_append_left _ hmem

/-- An outer iteration whose ready queue holds a debug op emits a
bundle and that debug op is in it. -/
theorem outerStep_debug_emits (cfg : Config) (slots : List Op) (hs : List Nat)
    (st : OuterState) (i : Nat) (hd : opEngine slots i = "debug") (hi : i ∈ st.ready) :
    ∃ l, (outerStep cfg slots hs st).cycles = st.cycles ++ [l] ∧ i ∈ l := by
  have hs1 : i ∈ sortLE (sortKeyLE slots hs) st.ready := (sortLE_mem _ _ i).2 hi
  unfold outerStep
  dsimp only
  cases hcl : cycleLoop cfg slots ((sortLE (sortKeyLE slots hs) st.ready).length + 1)
      ⟨[], [], ∅, ∅, st.scheduled, []⟩ (sortLE (sortKeyLE slots hs) st.ready) with
  | mk cs leftover =>
      have hmem : i ∈ cs.thisCycle := by
        have hml := cycleLoop_debug_mem cfg slots
          (sortLE (sortKeyLE slots hs) st.ready).length
          ⟨[], [], ∅, ∅, st.scheduled, []⟩ (sortLE (sortKeyLE slots hs) st.ready) i hd hs1
        rw [hcl] at hml
        exact hml
      have hbne : ¬ cs.bundle = [] := by
        intro hb
        have hinv := cycleLoop_bundle_empty cfg slots
          ((sortLE (sortKeyLE slots hs) st.ready).length + 1)
          ⟨[], [], ∅, ∅, st.scheduled, []⟩ (sortLE (sortKeyLE slots hs) st.ready)
          (fun _ => rfl)
        rw [hcl] at hinv
        have hte : cs.thisCycle = [] := hinv hb
        rw [hte] at hmem
        simp at hmem
      dsimp only
      simp only [if_neg hbne]
      cases hsw : cs.thisCycle.foldl
          (fun acc i => readyUpdate cs.scheduled slots.length i acc)
          (st.predRem, leftover) with
      | mk predRem1 ready1 =>
          exact ⟨cs.thisCycle, rfl, hmem⟩

theorem outerStep_cycles_prefix (cfg : Config) (slots : List Op) (hs : List Nat)
    (st : OuterState) :
    ∃ t, (outerStep cfg slots hs st).cycles = st.cycles ++ t := by
  unfold outerStep
  dsimp only
  cases hcl : cycleLoop cfg slots ((sortLE (sortKeyLE slots hs) st.ready).length + 1)
      ⟨[], [], ∅, ∅, st.scheduled, []⟩ (sortLE (sortKeyLE slots hs) st.ready) with
  | mk cs leftover =>
      dsimp only
      by_cases hb : cs.bundle = []
      · simp only [if_pos hb]
        cases hsw : cs.thisCycle.foldl
            (fun acc i => readyUpdate cs.scheduled slots.length i acc)
            (st.predRem, leftover) with
        | mk predRem1 ready1 =>
            exact ⟨[], (List.append_nil _).symm⟩
      · simp only [if_neg hb]
        cases hsw : cs.thisCycle.foldl
            (fun acc i => readyUpdate cs.scheduled slots.length i acc)
            (st.predRem, leftover) with
        | mk predRem1 ready1 =>
            exact ⟨[cs.thisCycle], rfl⟩

theorem schedLoop_cycles_prefix (cfg : Config) (slots : List Op) (hs : List Nat) :
    ∀ (fuel : Nat) (st : OuterState),
      ∃ t, (schedLoop cfg slots hs fuel st).cycles = st.cycles ++ t := by
  intro fuel
  induction fuel with
  | zero => intro st; exact ⟨[], (List.append_nil _).symm⟩
  | succ fuel ih =>
      intro st
      unfold schedLoop
      by_cases he : st.ready.isEmpty = true
      · rw [if_pos he]; exact ⟨[], (List.append_nil _).symm⟩
      · rw [if_neg he]
        obtain ⟨t1, ht1⟩ := ih (outerStep cfg slots hs st)
        obtain ⟨t0, ht0⟩ := outerStep_cycles_prefix cfg slots hs st
        exact ⟨t0 ++ t1, by rw [ht1, ht0, List.append_assoc]⟩

/-- C10: a debug op has no hard and no WAR predecessors (both sweeps
skip it), so it is ready at once and the first emitted bundle contains
it, wherever it sits in the stream. -/
theorem claim_C10_debug_first_bundle (cfg : Config) (slots : List Op) (i : Nat)
    (hi : i < slots.length) (hd : opEngine slots i = "debug") :
    predAt cfg slots i = ∅ ∧ warPredAt cfg slots i = ∅ ∧
      i ∈ (buildPacked cfg slots).2.getD 0 [] ∧
      opSlot slots i ∈ engineSlots ((buildPacked cfg slots).1.getD 0 []) "debug" := by
  have hready : i ∈ (List.range slots.length).filter
      (fun k => decide (predAt cfg slots k = ∅)) := by
    rw [List.mem_filter]
    exact ⟨List.mem_range.2 hi, by simp [predAt_debug cfg slots i hd]⟩
  have hkey : i ∈ (buildState cfg slots).cycles.getD 0 [] := by
    unfold buildState
    dsimp only
    unfold schedLoop
    rw [if_neg (by
      intro hemp
      rw [List.isEmpty_iff] at hemp
      have hemp2 : (List.range slots.length).filter
          (fun k => decide (predAt cfg slots k = ∅)) = [] := hemp
      rw [hemp2] at hready
      simp at hready)]
    obtain ⟨l, hl, hil⟩ := outerStep_debug_emits cfg slots (heights cfg slots)
      ⟨[], [], ∅, (List.range slots.length).map (predAt cfg slots),
        (List.range slots.length).filter (fun k => decide (predAt cfg slots k = ∅))⟩
      i hd hready
    obtain ⟨t, ht⟩ := schedLoop_cycles_prefix cfg slots (heights cfg slots)
      slots.length (outerStep cfg slots (heights cfg slots)
        ⟨[], [], ∅, (List.range slots.length).map (predAt cfg slots),
          (List.range slots.length).filter (fun k => decide (predAt cfg slots k = ∅))⟩)
    rw [ht, hl]
    simp [hil]
  refine ⟨predAt_debug cfg slots i hd, warPredAt_debug cfg slots i hd, hkey, ?_⟩
  have hsl := mem_cycle_slot_in_bundle cfg slots 0 i hkey
  rw [hd] at hsl
  exact hsl

/-- Debug example stream: an alu RAW pair with a trailing debug op. -/
def debugOps : List Op :=
  [("alu", ⟨"+", [.num 0, .num 1, .num 1]⟩),
   ("alu", ⟨"+", [.num 2, .num 0, .num 0]⟩),
   ("debug", ⟨"compare", [.keys [(0, 0, "x", 0)]]⟩)]

theorem claim_C10_debug_first_bundle_witness :
    2 < debugOps.length ∧ opEngine debugOps 2 = "debug" ∧
      (predAt cfgW debugOps 2 = ∅ ∧ warPredAt cfgW debugOps 2 = ∅ ∧
        2 ∈ (buildPacked cfgW debugOps).2.getD 0 [] ∧
        opSlot debugOps 2 ∈ engineSlots ((buildPacked cfgW debugOps).1.getD 0 []) "debug") :=
  ⟨by decide, by decide, claim_C10_debug_first_bundle cfgW debugOps 2 (by decide) (by decide)⟩

end S2P
